import Mathlib

/-!
Verification of the ASCII-tessellation maze engine (`mazeify` class,
`maze-ify-ascii-v3.py`).

The board is modelled exactly as in the source: a list of rows, each row a
list of cells, where every cell is a (usually one-character) string — Python
stores the template characters via `list(line)` and out-of-range reads
return the empty string `''`.  Coordinates are integers, `(0,0)` top-left,
`x` selecting the column inside row `y`; negative and too-large coordinates
are out of bounds.  All fallible operations (`set` with its
`raise_exception=True` bounds check) return `Except`; loops whose
termination Python gets from finiteness of the board are given an explicit
fuel parameter (fuel exhaustion is reported through a `done` flag where a
theorem needs to know the loop ran to completion).
-/

abbrev Cell := String

abbrev Board := List (List Cell)

abbrev Point := Int × Int

/-- `inBounds` from the source: `y >= 0 and y < len(board) and x >= 0 and
x < len(board[y])` (row-relative, so ragged boards are handled). -/
def inBounds (b : Board) (x y : Int) : Prop :=
  0 ≤ y ∧ y.toNat < b.length ∧ 0 ≤ x ∧ x.toNat < (b.getD y.toNat []).length

instance (b : Board) (x y : Int) : Decidable (inBounds b x y) := by
  unfold inBounds; infer_instance

/-- The `get` method from the source: the cell at `(x,y)`, or the empty-string sentinel
when out of bounds (`return ''`). -/
def getCell (b : Board) (x y : Int) : Cell :=
  if inBounds b x y then (b.getD y.toNat []).getD x.toNat "" else ""

/-- In-place single-cell update (`self.board[y][x] = value`), a no-op out of
bounds; the raising bounds check of the `set` method is `setExc` below. -/
def setCell (b : Board) (x y : Int) (v : Cell) : Board :=
  if inBounds b x y then b.set y.toNat ((b.getD y.toNat []).set x.toNat v) else b

/-- `set` from the source.  It always calls
`inBounds(x, y, raise_exception=True)`, so an out-of-bounds write raises
(`Except.error`, with the message built exactly as in the Python source);
in bounds it mutates the single cell and returns `True`. -/
def setExc (b : Board) (x y : Int) (v : Cell) : Except String (Board × Bool) :=
  if inBounds b x y then .ok (setCell b x y v, true)
  else .error ("x,y not in bounds" ++ toString x ++ "," ++ toString y)

/-- Parser configuration, mirroring the fields of `mazeify.__init__` that the
engine reads (rendering/debug switches that no claim touches are omitted). -/
structure Config where
  scan_diagonal : Bool
  pad : Nat
  scan_wall_space : Bool
  walls : List Cell
  walls_diagonal : List Cell
  corners : List Cell
  thickness : Int
  length : Int
  space : Cell
  unvisited : Cell
  visited : Cell
  avoid : Cell
  use_microspace : Bool

/-- The canonical configuration built by `mazeify.__init__`. -/
def defaultCfg : Config where
  scan_diagonal := true
  pad := 1
  scan_wall_space := true
  walls := ["/", "\\", "_", "|", "-", "+", "#"]
  walls_diagonal := ["/", "\\"]
  corners := ["+"]
  thickness := 1
  length := -1
  space := " "
  unvisited := " "
  visited := "`"
  avoid := "~"
  use_microspace := false

/-- `self.deltas`: scan/fill directions N S E W. -/
def baseDeltas : List Point := [(0,-1), (0,1), (-1,0), (1,0)]

/-- `self.zdeltas`: NW NE SW SE prepended to the cardinal deltas. -/
def zDeltas : List Point := [(1,-1), (-1,-1), (1,1), (-1,1)] ++ baseDeltas

/-- Direction set chosen at the top of `fillPoints`: diagonal deltas when the
find character is a diagonal wall and diagonal scanning is on. -/
def deltasFor (cfg : Config) (find : Cell) : List Point :=
  if cfg.scan_diagonal ∧ find ∈ cfg.walls_diagonal then zDeltas else baseDeltas

/-- `getMacroCharTopLeftPos`: snap `(x,y)` to the top-left corner of its
3×3 macro cell (Python `//` is floor division, hence `Int.fdiv`). -/
def getMacroCharTopLeftPos (cfg : Config) (x y : Int) : Point :=
  ((cfg.pad : Int) + ((x - cfg.pad).fdiv 3) * 3,
   (cfg.pad : Int) + ((y - cfg.pad).fdiv 3) * 3)

/-! ## Region fill (`fillPoints`, source lines 506-606)

`fillPoints` keeps a frontier (`next_scan`) of points; for each point it
scans straight rays (the scan coordinates `x2, y2` are *not* reset between
deltas, exactly as in the source, so after the first ray stops at a
non-matching cell every later delta breaks immediately); every replaced cell
is recorded in `data` and `this_scan`; when a wall-segment length cap is set,
distinct (macro) wall positions are counted in `walls` and the whole call
returns as soon as the count reaches the cap.  Fuel replaces the two
termination arguments (rays leave the board; the frontier starves); a ray
that runs out of fuel simply stops (its end point is re-queued through the
frontier like any other neighbour), and the outer loop reports whether it
ended by exhausting the frontier through the `done` flag. -/

structure FillSt where
  board : Board
  data : List Point
  walls : List Point
  thisScan : List Point

/-- Result of one straight-ray scan: either control continues with the
current scan position (the `break` of the inner `while`), or the wall cap
was reached and the whole `fillPoints` call returns (`return data`). -/
inductive FillRes where
  | cont (st : FillSt) (x2 y2 : Int)
  | capped (st : FillSt)

/-- The wall position counted for the cap: the macro top-left position in
microspace mode, the raw cell otherwise (source lines 573-575). -/
def countedWallPos (cfg : Config) (x2 y2 : Int) : Point :=
  if cfg.use_microspace then getMacroCharTopLeftPos cfg x2 y2 else (x2, y2)

/-- The inner `while not finished` ray scan of `fillPoints`. -/
def rayScan (cfg : Config) (find repl : Cell) :
    Nat → FillSt → Int → Int → Int → Int → FillRes
  | 0, st, x2, y2, _, _ => .cont st x2 y2
  | fuel+1, st, x2, y2, dx, dy =>
    let c := getCell st.board x2 y2
    if c ≠ find then .cont st x2 y2
    else
      let st' : FillSt :=
        { board := setCell st.board x2 y2 repl
          data := st.data ++ [(x2, y2)]
          walls := st.walls
          thisScan := st.thisScan ++ [(x2, y2)] }
      if cfg.length ≠ -1 ∧ c ∈ cfg.walls then
        let w := countedWallPos cfg x2 y2
        if w ∈ st.walls then
          rayScan cfg find repl fuel st' (x2+dx) (y2+dy) dx dy
        else
          let st'' := { st' with walls := st.walls ++ [w] }
          if (st''.walls.length : Int) ≥ cfg.length then .capped st''
          else rayScan cfg find repl fuel st'' (x2+dx) (y2+dy) dx dy
      else rayScan cfg find repl fuel st' (x2+dx) (y2+dy) dx dy

/-- The `for (dx,dy) in deltas` loop: the scan position survives from one
delta to the next (it is only initialised once per point). -/
def deltaLoop (cfg : Config) (find repl : Cell) (fuel : Nat) :
    List Point → FillSt → Int → Int → FillRes
  | [], st, x2, y2 => .cont st x2 y2
  | d :: ds, st, x2, y2 =>
    match rayScan cfg find repl fuel st x2 y2 d.1 d.2 with
    | .capped st' => .capped st'
    | .cont st' x2' y2' => deltaLoop cfg find repl fuel ds st' x2' y2'

/-- The `for (x,y) in points` loop of one frontier pass. -/
def pointLoop (cfg : Config) (find repl : Cell) (fuel : Nat) :
    List Point → FillSt → FillRes
  | [], st => .cont st 0 0
  | (x, y) :: ps, st =>
    match deltaLoop cfg find repl fuel (deltasFor cfg find) st x y with
    | .capped st' => .capped st'
    | .cont st' _ _ => pointLoop cfg find repl fuel ps st'

/-- Building the next frontier: every in-bounds delta-neighbour of a newly
replaced cell that is not already queued and not already in `data`. -/
def nextFrontier (deltas : List Point) (data : List Point) (thisScan : List Point)
    (b : Board) : List Point :=
  thisScan.foldl (fun acc p =>
    deltas.foldl (fun acc d =>
      let q : Point := (p.1 + d.1, p.2 + d.2)
      if inBounds b q.1 q.2 ∧ q ∉ acc ∧ q ∉ data then acc ++ [q] else acc) acc) []

/-- The outer `while(len(next_scan) > 0)` loop.  The returned flag is `true`
exactly when the loop ended on its own (frontier exhausted or wall cap hit)
rather than by running out of fuel. -/
def fillLoop (cfg : Config) (find repl : Cell) (rayFuel : Nat) :
    Nat → List Point → FillSt → FillSt × Bool
  | 0, ns, st => (st, ns.isEmpty)
  | fuel+1, ns, st =>
    if ns.isEmpty then (st, true)
    else
      match pointLoop cfg find repl rayFuel ns { st with thisScan := [] } with
      | .capped st' => (st', true)
      | .cont st' _ _ =>
        fillLoop cfg find repl rayFuel fuel
          (nextFrontier (deltasFor cfg find) st'.data st'.thisScan st'.board) st'

/-- Warning text of the mismatched-length check (source line 512). -/
def warnLengthsDiffer (find repl : Cell) : String :=
  "Warn: lengths differ. \"" ++ find ++ "\" -> \"" ++ repl ++ "\""

/-- Warning text of the `find == replace` check (source line 514). -/
def warnSameFindReplace (find : Cell) : String :=
  "Warn: same find == replace: " ++ find

structure FillOut where
  board : Board
  data : List Point
  warns : List String
  done : Bool

/-- `fillPoints(points, find, replace, level, data)`.  Mismatched
find/replace lengths only print a warning; `find == replace` prints a
warning and returns the accumulated `data` immediately. -/
def fillPoints (cfg : Config) (points : List Point) (find repl : Cell)
    (data : List Point) (fuel : Nat) (b : Board) : FillOut :=
  let warns :=
    (if find.length ≠ repl.length then [warnLengthsDiffer find repl] else []) ++
    (if find = repl then [warnSameFindReplace find] else [])
  if find = repl then { board := b, data := data, warns := warns, done := true }
  else
    let res := fillLoop cfg find repl fuel fuel points
      { board := b, data := data, walls := [], thisScan := [] }
    { board := res.1.board, data := res.1.data, warns := warns, done := res.2 }

/-- `findChar`: all points whose cell equals `find`, scanned row-major. -/
def findChar (b : Board) (find : Cell) : List Point :=
  (List.range b.length).flatMap (fun y =>
    (List.range (b.getD y []).length).filterMap (fun x =>
      if (b.getD y []).getD x "" = find then some ((x : Int), (y : Int)) else none))

/-- `initOutside` (source lines 610-626): claim the exterior from the origin
when there is a padding frame, then seal every `avoid`-marked region by
filling it to unvisited and straight back to visited.  Each `self.fill(x, y,
find, replace)` call is `fillPoints` on the single seed with a fresh `data`
list, exactly as `fill` does with `use_recursion` left at its default. -/
def initOutside (cfg : Config) (fuel : Nat) (b : Board) : Board :=
  let b1 := if 0 < cfg.pad
    then (fillPoints cfg [(0,0)] cfg.unvisited cfg.visited [] fuel b).board
    else b
  let pts := findChar b1 cfg.avoid
  pts.foldl (fun bb p =>
    let bb1 := (fillPoints cfg [p] cfg.avoid cfg.unvisited [] fuel bb).board
    (fillPoints cfg [p] cfg.unvisited cfg.visited [] fuel bb1).board) b1

/-! ## Basic grid lemmas -/

/-- Row-length profile of a board; fills and walks never change it. -/
def shape (b : Board) : List Nat := b.map List.length

theorem getD_map_length (b : Board) (n : Nat) :
    (b.map List.length).getD n 0 = (b.getD n []).length := by
  induction b generalizing n with
  | nil => simp
  | cons r rs ih =>
    cases n with
    | zero => simp
    | succ n => simpa using ih n

theorem shape_set_row (b : Board) (n x : Nat) (v : Cell) :
    shape (b.set n ((b.getD n []).set x v)) = shape b := by
  unfold shape
  induction b generalizing n with
  | nil => simp
  | cons r rs ih =>
    cases n with
    | zero => simp
    | succ n => simpa using ih n

theorem shape_setCell (b : Board) (x y : Int) (v : Cell) :
    shape (setCell b x y v) = shape b := by
  unfold setCell
  split
  · exact shape_set_row b y.toNat x.toNat v
  · rfl

theorem length_eq_of_shape {b1 b2 : Board} (h : shape b1 = shape b2) :
    b1.length = b2.length := by
  have := congrArg List.length h
  simpa [shape] using this

theorem rowLen_eq_of_shape {b1 b2 : Board} (h : shape b1 = shape b2) (n : Nat) :
    (b1.getD n []).length = (b2.getD n []).length := by
  have h2 := congrArg (fun l => List.getD l n 0) h
  simp only [shape] at h2
  rw [getD_map_length, getD_map_length] at h2
  exact h2

theorem inBounds_of_shape {b1 b2 : Board} (h : shape b1 = shape b2) (x y : Int) :
    inBounds b1 x y ↔ inBounds b2 x y := by
  unfold inBounds
  rw [length_eq_of_shape h, rowLen_eq_of_shape h]

theorem inBounds_setCell (b : Board) (x y x' y' : Int) (v : Cell) :
    inBounds (setCell b x y v) x' y' ↔ inBounds b x' y' :=
  inBounds_of_shape (shape_setCell b x y v) x' y'

theorem getD_set_same {α : Type} (l : List α) (i : Nat) (v d : α) (h : i < l.length) :
    (l.set i v).getD i d = v := by
  simp [List.getD, List.getElem?_set_self', h]

theorem getD_set_ne {α : Type} (l : List α) (i j : Nat) (v d : α) (h : i ≠ j) :
    (l.set i v).getD j d = l.getD j d := by
  simp [List.getD, List.getElem?_set_ne h]

theorem get_setCell_same (b : Board) (x y : Int) (v : Cell)
    (h : inBounds b x y) : getCell (setCell b x y v) x y = v := by
  unfold getCell setCell
  rw [if_pos h]
  rw [if_pos ((inBounds_of_shape (shape_set_row b y.toNat x.toNat v) x y).mpr h)]
  obtain ⟨hy0, hy, hx0, hx⟩ := h
  rw [getD_set_same _ _ _ _ hy, getD_set_same _ _ _ _ hx]

theorem get_setCell_ne (b : Board) (x y x' y' : Int) (v : Cell)
    (h : (x', y') ≠ (x, y)) : getCell (setCell b x y v) x' y' = getCell b x' y' := by
  unfold getCell setCell
  by_cases hib : inBounds b x y
  · rw [if_pos hib]
    by_cases hib' : inBounds b x' y'
    · rw [if_pos ((inBounds_of_shape (shape_set_row b y.toNat x.toNat v) x' y').mpr hib'),
        if_pos hib']
      obtain ⟨hy0, hy, hx0, hx⟩ := hib
      obtain ⟨hy0', hy', hx0', hx'⟩ := hib'
      by_cases hyy : y'.toNat = y.toNat
      · have hyeq : y' = y := by omega
        have hxx : x'.toNat ≠ x.toNat := by
          intro hc
          exact h (by simp [Prod.ext_iff]; omega)
        rw [hyy, getD_set_same _ _ _ _ hy, getD_set_ne _ _ _ _ _ (Ne.symm hxx)]
      · rw [getD_set_ne _ _ _ _ _ (Ne.symm hyy)]
    · rw [if_neg (fun hc =>
          hib' ((inBounds_of_shape (shape_set_row b y.toNat x.toNat v) x' y').mp hc)),
        if_neg hib']
  · rw [if_neg hib]

theorem get_setCell_or (b : Board) (x y x' y' : Int) (v : Cell) :
    getCell (setCell b x y v) x' y' = getCell b x' y' ∨ getCell (setCell b x y v) x' y' = v := by
  by_cases h : (x', y') = (x, y)
  · obtain ⟨h1, h2⟩ := Prod.mk.injEq .. ▸ h
    subst h1; subst h2
    by_cases hib : inBounds b x' y'
    · exact Or.inr (get_setCell_same b x' y' v hib)
    · left
      unfold setCell
      rw [if_neg hib]
  · exact Or.inl (get_setCell_ne b x y x' y' v h)

theorem get_eq_empty_of_not_inBounds (b : Board) (x y : Int)
    (h : ¬ inBounds b x y) : getCell b x y = "" := by
  unfold getCell
  rw [if_neg h]

theorem inBounds_of_get_ne_empty (b : Board) (x y : Int)
    (h : getCell b x y ≠ "") : inBounds b x y := by
  by_contra hc
  exact h (get_eq_empty_of_not_inBounds b x y hc)

/-! ## Direction ordering (`getDeltas`, source lines 766-785)

`shuffle` is modelled by taking the already-shuffled list as an argument;
`self.bias` is a Python dict, modelled as an insertion-ordered association
list.  `min(self.bias, key=self.bias.get)` / `max(...)` return the first key
attaining the extreme value; `list.remove` drops the first occurrence. -/

def removeFirst (l : List Point) (a : Point) : List Point :=
  match l with
  | [] => []
  | x :: xs => if x = a then xs else x :: removeFirst xs a

/-- First key of the association list with the strictly smallest value. -/
def minBiasKey : List (Point × Nat) → Option Point
  | [] => none
  | (k, v) :: rest =>
    match minBiasKey2 rest v with
    | none => some k
    | some k' => some k'
where
  /-- Helper: first key in the tail with value strictly below the bound. -/
  minBiasKey2 : List (Point × Nat) → Nat → Option Point
  | [], _ => none
  | (k, v) :: rest, bound =>
    if v < bound then
      match minBiasKey2 rest v with
      | none => some k
      | some k' => some k'
    else minBiasKey2 rest bound

/-- First key of the association list with the strictly largest value. -/
def maxBiasKey : List (Point × Nat) → Option Point
  | [] => none
  | (k, v) :: rest =>
    match maxBiasKey2 rest v with
    | none => some k
    | some k' => some k'
where
  /-- Helper: first key in the tail with value strictly above the bound. -/
  maxBiasKey2 : List (Point × Nat) → Nat → Option Point
  | [], _ => none
  | (k, v) :: rest, bound =>
    if bound < v then
      match maxBiasKey2 rest v with
      | none => some k
      | some k' => some k'
    else maxBiasKey2 rest bound

/-- `getDeltas` (source lines 766-785), taking the post-`shuffle` list as
input.  Note the final `deltas.remove(notrare)` sits *outside* the
`if notrare != rare` block in the source, and is modelled exactly so. -/
def getDeltas (shuffled : List Point) (bias : List (Point × Nat)) : List Point :=
  match minBiasKey bias, maxBiasKey bias with
  | some rare, some notrare =>
    let d1 := rare :: removeFirst shuffled rare
    let d2 := if notrare ≠ rare then removeFirst d1 notrare ++ [notrare] else d1
    removeFirst d2 notrare
  | _, _ => shuffled

/-! ## Claim C5 — `getDeltas` -/

/-- C5: the claim states that `getDeltas` always returns a permutation of
all four cardinal deltas, with the least-frequently-taken direction first
and the most-frequently-taken direction last whenever the bias counter is
non-empty.  The code contradicts its own doc comment ("put least used
first, most used last"): the unconditional `deltas.remove(notrare)` after
the `if notrare != rare` block deletes the most-used direction from the
returned list.  At the recorded walk bias `{S: 2, N: 1}` with the identity
shuffle of `[N, S, E, W]`, the result is the three-element list
`[N, E, W]`: the most-used direction `S = (0,1)` is missing entirely, so
the result is not a permutation of the four deltas and nothing is "placed
last". -/
theorem C5_getDeltas_drops_most_used :
    getDeltas baseDeltas [((0,1), 2), ((0,-1), 1)] = [(0,-1), (-1,0), (1,0)] ∧
    ((0,1) : Point) ∉ getDeltas baseDeltas [((0,1), 2), ((0,-1), 1)] ∧
    (getDeltas baseDeltas [((0,1), 2), ((0,-1), 1)]).length = 3 ∧
    ¬ (getDeltas baseDeltas [((0,1), 2), ((0,-1), 1)]).Perm baseDeltas := by
  decide

/-! ## Claim C7 — `set` -/

/-- C7 counterexample: the claim states that an out-of-bounds `set` reports
an out-of-bounds failure rather than raising, raising only when the caller
asks for exceptions.  But `set` hard-codes `raise_exception=True` in its
`inBounds` call, so every out-of-bounds `set` raises; the `return False`
branch is unreachable.  On a 1×1 board, `set(5, 5, "x")` raises with the
exact message built by the source, and an exception is never the claimed
success/failure return value. -/
theorem C7_counterexample :
    setExc [[" "]] 5 5 "x" = .error "x,y not in bounds5,5" ∧
    ∀ r : Board × Bool,
      (Except.error "x,y not in bounds5,5" : Except String (Board × Bool)) ≠ .ok r := by
  constructor
  · rfl
  · intro r h
    cases h

/-- C7 (amended): for every in-bounds position, `set` mutates exactly that
one cell (every other cell keeps its value and the board shape is
unchanged) and reports success; for every out-of-bounds position it raises
(`Except.error` with the source's message) instead of returning the
(unreachable) failure value. -/
theorem C7_set_behaviour (b : Board) (x y : Int) (v : Cell) :
    (inBounds b x y →
      setExc b x y v = .ok (setCell b x y v, true) ∧
      getCell (setCell b x y v) x y = v ∧
      (∀ x' y' : Int, (x', y') ≠ (x, y) →
        getCell (setCell b x y v) x' y' = getCell b x' y') ∧
      shape (setCell b x y v) = shape b) ∧
    (¬ inBounds b x y →
      setExc b x y v = .error ("x,y not in bounds" ++ toString x ++ "," ++ toString y)) := by
  constructor
  · intro h
    refine ⟨?_, get_setCell_same b x y v h, fun x' y' hne => get_setCell_ne b x y x' y' v hne,
      shape_setCell b x y v⟩
    unfold setExc
    rw [if_pos h]
  · intro h
    unfold setExc
    rw [if_neg h]

/-- C7 witness: the amended theorem applied to concrete in-bounds and
out-of-bounds calls. -/
theorem C7_set_behaviour_witness :
    setExc [[" "]] 0 0 "x" = .ok (setCell [[" "]] 0 0 "x", true) ∧
    setExc [[" "]] 9 0 "x" = .error "x,y not in bounds9,0" := by
  exact ⟨((C7_set_behaviour [[" "]] 0 0 "x").1 (by decide)).1,
    (C7_set_behaviour [[" "]] 9 0 "x").2 (by decide)⟩

/-! ## Generic facts about one fill step

`FillFacts find repl st st'` collects everything any claim needs about how
a piece of `fillPoints` moves the state from `st` to `st'`: `data` and
`this_scan` grow by the same new points, `walls` only grows, the board
shape is untouched, every cell value change goes from `find` to `repl` and
is recorded in `data`, and the number of `find` cells drops by exactly the
number of new data points.  `GoodSt` is the invariant that recorded points
have already been rewritten to `repl` (true from the start because cells
are only appended to `data` at the moment they are replaced). -/

def countCells (b : Board) (v : Cell) : Nat :=
  (b.map (fun row => (row.filter (fun c => c = v)).length)).sum

def FillFacts (find repl : Cell) (st st' : FillSt) : Prop :=
  (∃ Δ, st'.data = st.data ++ Δ ∧ st'.thisScan = st.thisScan ++ Δ ∧
    countCells st'.board find + Δ.length = countCells st.board find) ∧
  (∃ W, st'.walls = st.walls ++ W) ∧
  shape st'.board = shape st.board ∧
  (∀ x y : Int, ((x, y) ∈ st'.data ∧ (x, y) ∉ st.data) ∨
    getCell st'.board x y = getCell st.board x y) ∧
  (∀ x y : Int, (x, y) ∈ st'.data → (x, y) ∉ st.data →
    getCell st.board x y = find ∧ getCell st'.board x y = repl)

def GoodSt (find : Cell) (st : FillSt) : Prop :=
  ∀ p ∈ st.data, getCell st.board p.1 p.2 ≠ find

theorem fillFacts_refl (find repl : Cell) (st : FillSt) : FillFacts find repl st st :=
  ⟨⟨[], by simp, by simp, by simp⟩, ⟨[], by simp⟩, rfl,
    fun x y => Or.inr rfl, fun x y h h' => absurd h h'⟩

theorem fillFacts_trans {find repl : Cell} {st1 st2 st3 : FillSt}
    (h12 : FillFacts find repl st1 st2) (h23 : FillFacts find repl st2 st3) :
    FillFacts find repl st1 st3 := by
  obtain ⟨⟨Δ1, hd1, ht1, hc1⟩, ⟨W1, hw1⟩, hs1, hm1, hn1⟩ := h12
  obtain ⟨⟨Δ2, hd2, ht2, hc2⟩, ⟨W2, hw2⟩, hs2, hm2, hn2⟩ := h23
  refine ⟨⟨Δ1 ++ Δ2, by rw [hd2, hd1, List.append_assoc],
      by rw [ht2, ht1, List.append_assoc], by simp only [List.length_append]; omega⟩,
    ⟨W1 ++ W2, by rw [hw2, hw1, List.append_assoc]⟩, hs2.trans hs1, ?_, ?_⟩
  · intro x y
    rcases hm2 x y with h2 | h2
    · left
      refine ⟨h2.1, fun hc => h2.2 ?_⟩
      rw [hd1]
      exact List.mem_append_left Δ1 hc
    · rcases hm1 x y with h1 | h1
      · left
        refine ⟨by rw [hd2]; exact List.mem_append_left Δ2 h1.1, h1.2⟩
      · exact Or.inr (h2.trans h1)
  · intro x y h3 h1
    by_cases h2 : (x, y) ∈ st2.data
    · have hf := hn1 x y h2 h1
      refine ⟨hf.1, ?_⟩
      rcases hm2 x y with hm | hm
      · exact absurd h2 hm.2
      · rw [hm, hf.2]
    · have hf := hn2 x y h3 h2
      refine ⟨?_, hf.2⟩
      rcases hm1 x y with hm | hm
      · exact absurd hm.1 h2
      · rw [← hm, hf.1]

theorem fillFacts_data_mono {find repl : Cell} {st st' : FillSt}
    (h : FillFacts find repl st st') {p : Point} (hp : p ∈ st.data) : p ∈ st'.data := by
  obtain ⟨⟨Δ, hd, _, _⟩, _⟩ := h
  rw [hd]
  exact List.mem_append_left Δ hp

theorem fillFacts_notfind_stable {find repl : Cell} {st st' : FillSt}
    (h : FillFacts find repl st st') {x y : Int}
    (hq : getCell st.board x y ≠ find) : getCell st'.board x y ≠ find := by
  obtain ⟨_, _, _, hm, hn⟩ := h
  rcases hm x y with hc | hc
  · exact absurd (hn x y hc.1 hc.2).1 hq
  · rw [hc]
    exact hq

theorem fillFacts_goodSt {find repl : Cell} {st st' : FillSt} (hfr : find ≠ repl)
    (h : FillFacts find repl st st') (hg : GoodSt find st) : GoodSt find st' := by
  obtain ⟨_, _, _, hm, hn⟩ := h
  intro p hp
  by_cases hold : p ∈ st.data
  · rcases hm p.1 p.2 with hc | hc
    · exact absurd hold hc.2
    · rw [hc]
      exact hg p hold
  · rw [(hn p.1 p.2 hp hold).2]
    exact hfr.symm

def FillRes.st : FillRes → FillSt
  | .cont st _ _ => st
  | .capped st => st

theorem count_filter_set_row (find repl : Cell) (hfr : find ≠ repl) :
    ∀ (row : List Cell) (i : Nat), i < row.length → row.getD i "" = find →
      ((row.set i repl).filter (fun c => c = find)).length + 1 =
        (row.filter (fun c => c = find)).length := by
  intro row
  induction row with
  | nil => intro i h; simp at h
  | cons v rest ih =>
    intro i hi hv
    cases i with
    | zero =>
      simp only [List.getD_cons_zero] at hv
      subst hv
      simp [List.filter, hfr.symm, decide_eq_true_eq]
    | succ i =>
      simp only [List.getD_cons_succ] at hv
      simp only [List.length_cons, Nat.succ_lt_succ_iff] at hi
      have h2 := ih i hi hv
      simp only [List.set_cons_succ, List.filter_cons]
      by_cases hh : v = find
      · rw [if_pos (by simp [hh]), if_pos (by simp [hh])]
        simp only [List.length_cons]
        omega
      · rw [if_neg (by simp [hh]), if_neg (by simp [hh])]
        exact h2

theorem countCells_set_row (find repl : Cell) (hfr : find ≠ repl) :
    ∀ (b : Board) (n i : Nat), n < b.length → i < (b.getD n []).length →
      (b.getD n []).getD i "" = find →
      countCells (b.set n ((b.getD n []).set i repl)) find + 1 = countCells b find := by
  intro b
  induction b with
  | nil => intro n i h; simp at h
  | cons row rest ih =>
    intro n i hn hi hv
    cases n with
    | zero =>
      simp only [List.getD_cons_zero] at hi hv
      simp only [List.set, List.getD_cons_zero, countCells, List.map_cons, List.sum_cons]
      have := count_filter_set_row find repl hfr row i hi hv
      omega
    | succ n =>
      simp only [List.getD_cons_succ] at hi hv
      simp only [List.length_cons, Nat.succ_lt_succ_iff] at hn
      simp only [List.set, List.getD_cons_succ, countCells, List.map_cons, List.sum_cons]
      have := ih n i hn hi hv
      simp only [countCells] at this
      omega

theorem countCells_setCell (find repl : Cell) (b : Board) (x y : Int)
    (hfr : find ≠ repl) (hfe : find ≠ "")
    (hv : getCell b x y = find) :
    countCells (setCell b x y repl) find + 1 = countCells b find := by
  have hib : inBounds b x y := inBounds_of_get_ne_empty b x y (by rw [hv]; exact hfe)
  obtain ⟨hy0, hy, hx0, hx⟩ := hib
  unfold setCell
  rw [if_pos ⟨hy0, hy, hx0, hx⟩]
  refine countCells_set_row find repl hfr b y.toNat x.toNat hy hx ?_
  unfold getCell at hv
  rw [if_pos ⟨hy0, hy, hx0, hx⟩] at hv
  exact hv

/-- The elementary `FillFacts` step for one `self.set(x2, y2, replace)`
together with the `data`/`this_scan` appends (and whatever happened to the
`walls` list). -/
theorem fillFacts_set_step (find repl : Cell) (hfr : find ≠ repl) (hfe : find ≠ "")
    (st : FillSt) (x2 y2 : Int) (hc : getCell st.board x2 y2 = find)
    (hnd : (x2, y2) ∉ st.data) (walls' : List Point)
    (hW : ∃ W, walls' = st.walls ++ W) :
    FillFacts find repl st
      ⟨setCell st.board x2 y2 repl, st.data ++ [(x2, y2)],
        walls', st.thisScan ++ [(x2, y2)]⟩ := by
  have hib : inBounds st.board x2 y2 :=
    inBounds_of_get_ne_empty st.board x2 y2 (by rw [hc]; exact hfe)
  refine ⟨⟨[(x2, y2)], rfl, rfl, by
      simpa using countCells_setCell find repl st.board x2 y2 hfr hfe hc⟩,
    hW, shape_setCell st.board x2 y2 repl, ?_, ?_⟩
  · intro x y
    by_cases hxy : (x, y) = (x2, y2)
    · left
      rw [hxy]
      exact ⟨List.mem_append_right _ (List.mem_singleton_self _), hnd⟩
    · right
      exact get_setCell_ne st.board x2 y2 x y repl hxy
  · intro x y hmem hold
    have hxy : (x, y) = (x2, y2) := by
      rcases List.mem_append.mp hmem with h | h
      · exact absurd h hold
      · simpa using h
    obtain ⟨h1, h2⟩ := Prod.mk.injEq .. ▸ hxy
    subst h1; subst h2
    exact ⟨hc, get_setCell_same st.board x y repl hib⟩

theorem rayScan_facts (cfg : Config) (find repl : Cell) (hfr : find ≠ repl)
    (hfe : find ≠ "") :
    ∀ (fuel : Nat) (st : FillSt) (x2 y2 dx dy : Int), GoodSt find st →
      FillFacts find repl st (rayScan cfg find repl fuel st x2 y2 dx dy).st := by
  intro fuel
  induction fuel with
  | zero =>
    intro st x2 y2 dx dy _
    exact fillFacts_refl find repl st
  | succ fuel ih =>
    intro st x2 y2 dx dy hg
    simp only [rayScan]
    by_cases hc : getCell st.board x2 y2 ≠ find
    · rw [if_pos hc]
      exact fillFacts_refl find repl st
    · rw [if_neg hc]
      have hcc : getCell st.board x2 y2 = find := not_not.mp hc
      have hnd : (x2, y2) ∉ st.data := fun hmem => (hg _ hmem) hcc
      by_cases hwb : cfg.length ≠ -1 ∧ getCell st.board x2 y2 ∈ cfg.walls
      · rw [if_pos hwb]
        by_cases hmem : countedWallPos cfg x2 y2 ∈ st.walls
        · rw [if_pos hmem]
          have hstep := fillFacts_set_step find repl hfr hfe st x2 y2 hcc hnd
            st.walls ⟨[], by simp⟩
          exact fillFacts_trans hstep
            (ih _ (x2+dx) (y2+dy) dx dy (fillFacts_goodSt hfr hstep hg))
        · rw [if_neg hmem]
          have hstep := fillFacts_set_step find repl hfr hfe st x2 y2 hcc hnd
            (st.walls ++ [countedWallPos cfg x2 y2]) ⟨[countedWallPos cfg x2 y2], rfl⟩
          by_cases hcap :
              ((st.walls ++ [countedWallPos cfg x2 y2]).length : Int) ≥ cfg.length
          · rw [if_pos hcap]
            exact hstep
          · rw [if_neg hcap]
            exact fillFacts_trans hstep
              (ih _ (x2+dx) (y2+dy) dx dy (fillFacts_goodSt hfr hstep hg))
      · rw [if_neg hwb]
        have hstep := fillFacts_set_step find repl hfr hfe st x2 y2 hcc hnd
          st.walls ⟨[], by simp⟩
        exact fillFacts_trans hstep
          (ih _ (x2+dx) (y2+dy) dx dy (fillFacts_goodSt hfr hstep hg))

theorem deltaLoop_facts (cfg : Config) (find repl : Cell) (hfr : find ≠ repl)
    (hfe : find ≠ "") (fuel : Nat) :
    ∀ (ds : List Point) (st : FillSt) (x2 y2 : Int), GoodSt find st →
      FillFacts find repl st (deltaLoop cfg find repl fuel ds st x2 y2).st := by
  intro ds
  induction ds with
  | nil =>
    intro st x2 y2 _
    exact fillFacts_refl find repl st
  | cons d ds ih =>
    intro st x2 y2 hg
    simp only [deltaLoop]
    cases hres : rayScan cfg find repl fuel st x2 y2 d.1 d.2 with
    | capped st' =>
      have h1 := rayScan_facts cfg find repl hfr hfe fuel st x2 y2 d.1 d.2 hg
      rw [hres] at h1
      exact h1
    | cont st' x2' y2' =>
      have h1 := rayScan_facts cfg find repl hfr hfe fuel st x2 y2 d.1 d.2 hg
      rw [hres] at h1
      exact fillFacts_trans h1 (ih st' x2' y2' (fillFacts_goodSt hfr h1 hg))

theorem pointLoop_facts (cfg : Config) (find repl : Cell) (hfr : find ≠ repl)
    (hfe : find ≠ "") (fuel : Nat) :
    ∀ (ps : List Point) (st : FillSt), GoodSt find st →
      FillFacts find repl st (pointLoop cfg find repl fuel ps st).st := by
  intro ps
  induction ps with
  | nil =>
    intro st _
    exact fillFacts_refl find repl st
  | cons p ps ih =>
    intro st hg
    obtain ⟨x, y⟩ := p
    simp only [pointLoop]
    cases hres : deltaLoop cfg find repl fuel (deltasFor cfg find) st x y with
    | capped st' =>
      have h1 := deltaLoop_facts cfg find repl hfr hfe fuel (deltasFor cfg find) st x y hg
      rw [hres] at h1
      exact h1
    | cont st' x2' y2' =>
      have h1 := deltaLoop_facts cfg find repl hfr hfe fuel (deltasFor cfg find) st x y hg
      rw [hres] at h1
      exact fillFacts_trans h1 (ih st' (fillFacts_goodSt hfr h1 hg))

/-! ## Claim C1 — the wall-segment cap of `fillPoints`

The `walls` list of a `fillPoints` call collects the distinct counted wall
positions (macro top-left in microspace mode) of the cells replaced so far;
the call returns as soon as its length reaches `self.length`.  The
invariant below says every newly recorded data point has its counted
position inside `walls`, and `walls` stays strictly below the cap while the
scan continues (at most the cap once it stops). -/

def CapCover (cfg : Config) (data0 : List Point) (st : FillSt) : Prop :=
  ∃ Δ, st.data = data0 ++ Δ ∧ ∀ p ∈ Δ, countedWallPos cfg p.1 p.2 ∈ st.walls

theorem rayScan_cap (cfg : Config) (find repl : Cell) (N : Nat)
    (hN : cfg.length = (N : Int)) (hN1 : 1 ≤ N) (hwall : find ∈ cfg.walls)
    (data0 : List Point) :
    ∀ (fuel : Nat) (st : FillSt) (x2 y2 dx dy : Int),
      CapCover cfg data0 st → st.walls.length < N →
      (match rayScan cfg find repl fuel st x2 y2 dx dy with
        | .cont st' _ _ => CapCover cfg data0 st' ∧ st'.walls.length < N
        | .capped st' => CapCover cfg data0 st' ∧ st'.walls.length ≤ N) := by
  intro fuel
  induction fuel with
  | zero =>
    intro st x2 y2 dx dy hc hw
    exact ⟨hc, hw⟩
  | succ fuel ih =>
    intro st x2 y2 dx dy hc hw
    simp only [rayScan]
    by_cases hne : getCell st.board x2 y2 ≠ find
    · rw [if_pos hne]
      exact ⟨hc, hw⟩
    · rw [if_neg hne]
      have hcc : getCell st.board x2 y2 = find := not_not.mp hne
      have hwb : cfg.length ≠ -1 ∧ getCell st.board x2 y2 ∈ cfg.walls := by
        refine ⟨?_, by rw [hcc]; exact hwall⟩
        rw [hN]
        intro hcontra
        omega
      rw [if_pos hwb]
      obtain ⟨Δ, hΔ, hcov⟩ := hc
      by_cases hmem : countedWallPos cfg x2 y2 ∈ st.walls
      · rw [if_pos hmem]
        refine ih _ (x2+dx) (y2+dy) dx dy ⟨Δ ++ [(x2, y2)], ?_, ?_⟩ hw
        · simp only [hΔ, List.append_assoc]
        · intro p hp
          rcases List.mem_append.mp hp with h | h
          · exact hcov p h
          · simp only [List.mem_singleton] at h
            subst h
            exact hmem
      · rw [if_neg hmem]
        have hcov' : CapCover cfg data0
            ⟨setCell st.board x2 y2 repl, st.data ++ [(x2, y2)],
              st.walls ++ [countedWallPos cfg x2 y2], st.thisScan ++ [(x2, y2)]⟩ := by
          refine ⟨Δ ++ [(x2, y2)], by simp only [hΔ, List.append_assoc], ?_⟩
          intro p hp
          rcases List.mem_append.mp hp with h | h
          · exact List.mem_append_left _ (hcov p h)
          · simp only [List.mem_singleton] at h
            subst h
            exact List.mem_append_right _ (List.mem_singleton_self _)
        by_cases hcap :
            (((st.walls ++ [countedWallPos cfg x2 y2]).length : Nat) : Int) ≥ cfg.length
        · rw [if_pos hcap]
          refine ⟨hcov', ?_⟩
          simp only [List.length_append, List.length_cons, List.length_nil]
          omega
        · rw [if_neg hcap]
          refine ih _ (x2+dx) (y2+dy) dx dy hcov' ?_
          rw [hN] at hcap
          simp only [List.length_append, List.length_cons, List.length_nil] at hcap ⊢
          omega

theorem deltaLoop_cap (cfg : Config) (find repl : Cell) (N : Nat)
    (hN : cfg.length = (N : Int)) (hN1 : 1 ≤ N) (hwall : find ∈ cfg.walls)
    (data0 : List Point) (fuel : Nat) :
    ∀ (ds : List Point) (st : FillSt) (x2 y2 : Int),
      CapCover cfg data0 st → st.walls.length < N →
      (match deltaLoop cfg find repl fuel ds st x2 y2 with
        | .cont st' _ _ => CapCover cfg data0 st' ∧ st'.walls.length < N
        | .capped st' => CapCover cfg data0 st' ∧ st'.walls.length ≤ N) := by
  intro ds
  induction ds with
  | nil =>
    intro st x2 y2 hc hw
    exact ⟨hc, hw⟩
  | cons d ds ih =>
    intro st x2 y2 hc hw
    simp only [deltaLoop]
    have h1 := rayScan_cap cfg find repl N hN hN1 hwall data0 fuel st x2 y2 d.1 d.2 hc hw
    cases hres : rayScan cfg find repl fuel st x2 y2 d.1 d.2 with
    | capped st' =>
      rw [hres] at h1
      exact h1
    | cont st' x2' y2' =>
      rw [hres] at h1
      exact ih st' x2' y2' h1.1 h1.2

theorem pointLoop_cap (cfg : Config) (find repl : Cell) (N : Nat)
    (hN : cfg.length = (N : Int)) (hN1 : 1 ≤ N) (hwall : find ∈ cfg.walls)
    (data0 : List Point) (fuel : Nat) :
    ∀ (ps : List Point) (st : FillSt),
      CapCover cfg data0 st → st.walls.length < N →
      (match pointLoop cfg find repl fuel ps st with
        | .cont st' _ _ => CapCover cfg data0 st' ∧ st'.walls.length < N
        | .capped st' => CapCover cfg data0 st' ∧ st'.walls.length ≤ N) := by
  intro ps
  induction ps with
  | nil =>
    intro st hc hw
    exact ⟨hc, hw⟩
  | cons p ps ih =>
    intro st hc hw
    obtain ⟨x, y⟩ := p
    simp only [pointLoop]
    have h1 := deltaLoop_cap cfg find repl N hN hN1 hwall data0 fuel
      (deltasFor cfg find) st x y hc hw
    cases hres : deltaLoop cfg find repl fuel (deltasFor cfg find) st x y with
    | capped st' =>
      rw [hres] at h1
      exact h1
    | cont st' x2' y2' =>
      rw [hres] at h1
      exact ih st' h1.1 h1.2

theorem fillLoop_cap (cfg : Config) (find repl : Cell) (N : Nat)
    (hN : cfg.length = (N : Int)) (hN1 : 1 ≤ N) (hwall : find ∈ cfg.walls)
    (data0 : List Point) (rayFuel : Nat) :
    ∀ (fuel : Nat) (ns : List Point) (st : FillSt),
      CapCover cfg data0 st → st.walls.length < N →
      CapCover cfg data0 (fillLoop cfg find repl rayFuel fuel ns st).1 ∧
        (fillLoop cfg find repl rayFuel fuel ns st).1.walls.length ≤ N := by
  intro fuel
  induction fuel with
  | zero =>
    intro ns st hc hw
    exact ⟨hc, Nat.le_of_lt hw⟩
  | succ fuel ih =>
    intro ns st hc hw
    simp only [fillLoop]
    by_cases hns : ns.isEmpty
    · rw [if_pos hns]
      exact ⟨hc, Nat.le_of_lt hw⟩
    · rw [if_neg hns]
      have hreset : CapCover cfg data0 { st with thisScan := [] } := hc
      have h1 := pointLoop_cap cfg find repl N hN hN1 hwall data0 rayFuel ns
        { st with thisScan := [] } hreset hw
      cases hres : pointLoop cfg find repl rayFuel ns { st with thisScan := [] } with
      | capped st' =>
        rw [hres] at h1
        exact h1
      | cont st' x2' y2' =>
        rw [hres] at h1
        exact ih _ st' h1.1 h1.2

/-- C1: with the wall-segment cap set to `N ≥ 1` and a find character in the
wall set, a single `fillPoints` call replaces at most `N` distinct macro
top-left positions: every replaced cell's counted wall position is recorded
in the call's `walls` list, whose length never exceeds `N` because the call
returns the moment it reaches `N`.  (Without microspace the code counts the
raw cells themselves, of which there are then at most `N`, so their macro
top-left images are also at most `N`.) -/
theorem C1_fill_wall_cap (cfg : Config) (points : List Point) (find repl : Cell)
    (data : List Point) (fuel : Nat) (b : Board) (N : Nat)
    (hN : cfg.length = (N : Int)) (hN1 : 1 ≤ N) (hwall : find ∈ cfg.walls) :
    (((fillPoints cfg points find repl data fuel b).data.drop data.length).map
      (fun p => getMacroCharTopLeftPos cfg p.1 p.2)).toFinset.card ≤ N := by
  unfold fillPoints
  by_cases hfr : find = repl
  · rw [if_pos hfr]
    simp
  · rw [if_neg hfr]
    have h0 : CapCover cfg data
        (⟨b, data, [], []⟩ : FillSt) := ⟨[], by simp, by simp⟩
    have h1 := fillLoop_cap cfg find repl N hN hN1 hwall data fuel fuel points
      ⟨b, data, [], []⟩ h0 (by simpa using hN1)
    obtain ⟨⟨Δ, hΔ, hcov⟩, hlen⟩ := h1
    simp only [hΔ, List.drop_left]
    by_cases hms : cfg.use_microspace
    · have hsub : (Δ.map (fun p => getMacroCharTopLeftPos cfg p.1 p.2)).toFinset ⊆
          ((fillLoop cfg find repl fuel fuel points ⟨b, data, [], []⟩).1.walls).toFinset := by
        intro q hq
        simp only [List.mem_toFinset, List.mem_map] at hq
        obtain ⟨p, hp, hpq⟩ := hq
        rw [List.mem_toFinset, ← hpq]
        have hcw := hcov p hp
        unfold countedWallPos at hcw
        rw [if_pos hms] at hcw
        exact hcw
      calc ((Δ.map (fun p => getMacroCharTopLeftPos cfg p.1 p.2)).toFinset).card
          ≤ _ := Finset.card_le_card hsub
        _ ≤ ((fillLoop cfg find repl fuel fuel points
              ⟨b, data, [], []⟩).1.walls).length := List.toFinset_card_le _
        _ ≤ N := hlen
    · have hsub : Δ.toFinset ⊆
          ((fillLoop cfg find repl fuel fuel points ⟨b, data, [], []⟩).1.walls).toFinset := by
        intro q hq
        rw [List.mem_toFinset] at hq ⊢
        have hcw := hcov q hq
        unfold countedWallPos at hcw
        rw [if_neg hms] at hcw
        exact hcw
      calc ((Δ.map (fun p => getMacroCharTopLeftPos cfg p.1 p.2)).toFinset).card
          = (Δ.toFinset.image (fun p => getMacroCharTopLeftPos cfg p.1 p.2)).card := by
            congr 1
            ext q
            simp [List.mem_toFinset, List.mem_map, Finset.mem_image]
        _ ≤ Δ.toFinset.card := Finset.card_image_le
        _ ≤ ((fillLoop cfg find repl fuel fuel points
              ⟨b, data, [], []⟩).1.walls).toFinset.card := Finset.card_le_card hsub
        _ ≤ ((fillLoop cfg find repl fuel fuel points
              ⟨b, data, [], []⟩).1.walls).length := List.toFinset_card_le _
        _ ≤ N := hlen

/-- The canonical configuration with the wall-segment cap `-l 2`. -/
def capCfg : Config := { defaultCfg with length := 2 }

/-- C1 witness: a concrete capped fill (cap 2, find `"_"`, a five-underscore
wall) replacing at most two distinct macro positions. -/
theorem C1_fill_wall_cap_witness :
    "_" ∈ capCfg.walls ∧ capCfg.length = (2 : Int) ∧
    (((fillPoints capCfg [(0,0)] "_" " " [] 20
          [["_","_","_","_","_"]]).data.drop ([] : List Point).length).map
      (fun p => getMacroCharTopLeftPos capCfg p.1 p.2)).toFinset.card ≤ 2 :=
  ⟨by decide, by decide,
    C1_fill_wall_cap capCfg [(0,0)] "_" " " [] 20 [["_","_","_","_","_"]] 2
      (by decide) (by decide) (by decide)⟩

/-! ## Facts across whole frontier passes

`this_scan` is reset at the top of each pass of the outer `while` loop, so
facts carried across passes drop the `data`/`this_scan` coupling. -/

def LoopFacts (find repl : Cell) (st st' : FillSt) : Prop :=
  (∃ Δ, st'.data = st.data ++ Δ ∧
    countCells st'.board find + Δ.length = countCells st.board find) ∧
  (∃ W, st'.walls = st.walls ++ W) ∧
  shape st'.board = shape st.board ∧
  (∀ x y : Int, ((x, y) ∈ st'.data ∧ (x, y) ∉ st.data) ∨
    getCell st'.board x y = getCell st.board x y) ∧
  (∀ x y : Int, (x, y) ∈ st'.data → (x, y) ∉ st.data →
    getCell st.board x y = find ∧ getCell st'.board x y = repl)

theorem loopFacts_of_fillFacts {find repl : Cell} {st st' : FillSt}
    (h : FillFacts find repl st st') : LoopFacts find repl st st' := by
  obtain ⟨⟨Δ, hd, _, hc⟩, hw, hs, hm, hn⟩ := h
  exact ⟨⟨Δ, hd, hc⟩, hw, hs, hm, hn⟩

theorem loopFacts_reset (find repl : Cell) (st : FillSt) (ts : List Point) :
    LoopFacts find repl st { st with thisScan := ts } :=
  ⟨⟨[], by simp, by simp⟩, ⟨[], by simp⟩, rfl, fun x y => Or.inr rfl,
    fun x y h h' => absurd h h'⟩

theorem loopFacts_trans {find repl : Cell} {st1 st2 st3 : FillSt}
    (h12 : LoopFacts find repl st1 st2) (h23 : LoopFacts find repl st2 st3) :
    LoopFacts find repl st1 st3 := by
  obtain ⟨⟨Δ1, hd1, hc1⟩, ⟨W1, hw1⟩, hs1, hm1, hn1⟩ := h12
  obtain ⟨⟨Δ2, hd2, hc2⟩, ⟨W2, hw2⟩, hs2, hm2, hn2⟩ := h23
  refine ⟨⟨Δ1 ++ Δ2, by rw [hd2, hd1, List.append_assoc],
      by simp only [List.length_append]; omega⟩,
    ⟨W1 ++ W2, by rw [hw2, hw1, List.append_assoc]⟩, hs2.trans hs1, ?_, ?_⟩
  · intro x y
    rcases hm2 x y with h2 | h2
    · left
      refine ⟨h2.1, fun hc => h2.2 ?_⟩
      rw [hd1]
      exact List.mem_append_left Δ1 hc
    · rcases hm1 x y with h1 | h1
      · left
        refine ⟨by rw [hd2]; exact List.mem_append_left Δ2 h1.1, h1.2⟩
      · exact Or.inr (h2.trans h1)
  · intro x y h3 h1
    by_cases h2 : (x, y) ∈ st2.data
    · have hf := hn1 x y h2 h1
      refine ⟨hf.1, ?_⟩
      rcases hm2 x y with hm | hm
      · exact absurd h2 hm.2
      · rw [hm, hf.2]
    · have hf := hn2 x y h3 h2
      refine ⟨?_, hf.2⟩
      rcases hm1 x y with hm | hm
      · exact absurd hm.1 h2
      · rw [← hm, hf.1]

theorem loopFacts_data_mono {find repl : Cell} {st st' : FillSt}
    (h : LoopFacts find repl st st') {p : Point} (hp : p ∈ st.data) : p ∈ st'.data := by
  obtain ⟨⟨Δ, hd, _⟩, _⟩ := h
  rw [hd]
  exact List.mem_append_left Δ hp

theorem loopFacts_notfind_stable {find repl : Cell} {st st' : FillSt}
    (h : LoopFacts find repl st st') {x y : Int}
    (hq : getCell st.board x y ≠ find) : getCell st'.board x y ≠ find := by
  obtain ⟨_, _, _, hm, hn⟩ := h
  rcases hm x y with hc | hc
  · exact absurd (hn x y hc.1 hc.2).1 hq
  · rw [hc]
    exact hq

theorem loopFacts_goodSt {find repl : Cell} {st st' : FillSt} (hfr : find ≠ repl)
    (h : LoopFacts find repl st st') (hg : GoodSt find st) : GoodSt find st' := by
  obtain ⟨_, _, _, hm, hn⟩ := h
  intro p hp
  by_cases hold : p ∈ st.data
  · rcases hm p.1 p.2 with hc | hc
    · exact absurd hold hc.2
    · rw [hc]
      exact hg p hold
  · rw [(hn p.1 p.2 hp hold).2]
    exact hfr.symm

theorem goodSt_reset {find : Cell} {st : FillSt} (hg : GoodSt find st) (ts : List Point) :
    GoodSt find { st with thisScan := ts } := hg

theorem fillLoop_facts (cfg : Config) (find repl : Cell) (hfr : find ≠ repl)
    (hfe : find ≠ "") (rayFuel : Nat) :
    ∀ (fuel : Nat) (ns : List Point) (st : FillSt), GoodSt find st →
      LoopFacts find repl st (fillLoop cfg find repl rayFuel fuel ns st).1 := by
  intro fuel
  induction fuel with
  | zero =>
    intro ns st _
    exact loopFacts_trans (loopFacts_reset find repl st st.thisScan) (by
      simp only [fillLoop]
      exact loopFacts_reset find repl _ _)
  | succ fuel ih =>
    intro ns st hg
    simp only [fillLoop]
    by_cases hns : ns.isEmpty
    · rw [if_pos hns]
      exact loopFacts_trans (loopFacts_reset find repl st st.thisScan)
        (loopFacts_reset find repl _ _)
    · rw [if_neg hns]
      have h0 : LoopFacts find repl st { st with thisScan := [] } :=
        loopFacts_reset find repl st []
      have h1 := pointLoop_facts cfg find repl hfr hfe rayFuel ns
        { st with thisScan := [] } (goodSt_reset hg [])
      cases hres : pointLoop cfg find repl rayFuel ns { st with thisScan := [] } with
      | capped st' =>
        rw [hres] at h1
        exact loopFacts_trans h0 (loopFacts_of_fillFacts h1)
      | cont st' x2' y2' =>
        rw [hres] at h1
        have h2 := ih (nextFrontier (deltasFor cfg find) st'.data st'.thisScan st'.board) st'
          (fillFacts_goodSt hfr h1 (goodSt_reset hg []))
        exact loopFacts_trans h0 (loopFacts_trans (loopFacts_of_fillFacts h1) h2)

/-! ## When the find character is not a wall, the cap can never trigger -/

theorem rayScan_nocap (cfg : Config) (find repl : Cell) (hnc : find ∉ cfg.walls) :
    ∀ (fuel : Nat) (st : FillSt) (x2 y2 dx dy : Int),
      ∃ st' x2' y2', rayScan cfg find repl fuel st x2 y2 dx dy = .cont st' x2' y2' := by
  intro fuel
  induction fuel with
  | zero =>
    intro st x2 y2 dx dy
    exact ⟨st, x2, y2, rfl⟩
  | succ fuel ih =>
    intro st x2 y2 dx dy
    simp only [rayScan]
    by_cases hne : getCell st.board x2 y2 ≠ find
    · rw [if_pos hne]
      exact ⟨st, x2, y2, rfl⟩
    · rw [if_neg hne]
      have hcc : getCell st.board x2 y2 = find := not_not.mp hne
      have hwb : ¬ (cfg.length ≠ -1 ∧ getCell st.board x2 y2 ∈ cfg.walls) := by
        intro hcontra
        rw [hcc] at hcontra
        exact hnc hcontra.2
      rw [if_neg hwb]
      exact ih _ (x2+dx) (y2+dy) dx dy

theorem deltaLoop_nocap (cfg : Config) (find repl : Cell) (hnc : find ∉ cfg.walls)
    (fuel : Nat) :
    ∀ (ds : List Point) (st : FillSt) (x2 y2 : Int),
      ∃ st' x2' y2', deltaLoop cfg find repl fuel ds st x2 y2 = .cont st' x2' y2' := by
  intro ds
  induction ds with
  | nil =>
    intro st x2 y2
    exact ⟨st, x2, y2, rfl⟩
  | cons d ds ih =>
    intro st x2 y2
    simp only [deltaLoop]
    obtain ⟨st1, x1, y1, h1⟩ := rayScan_nocap cfg find repl hnc fuel st x2 y2 d.1 d.2
    rw [h1]
    exact ih st1 x1 y1

theorem pointLoop_nocap (cfg : Config) (find repl : Cell) (hnc : find ∉ cfg.walls)
    (fuel : Nat) :
    ∀ (ps : List Point) (st : FillSt),
      ∃ st' x2' y2', pointLoop cfg find repl fuel ps st = .cont st' x2' y2' := by
  intro ps
  induction ps with
  | nil =>
    intro st
    exact ⟨st, 0, 0, rfl⟩
  | cons p ps ih =>
    intro st
    obtain ⟨x, y⟩ := p
    simp only [pointLoop]
    obtain ⟨st1, x1, y1, h1⟩ := deltaLoop_nocap cfg find repl hnc fuel
      (deltasFor cfg find) st x y
    rw [h1]
    exact ih st1

/-! ## Every queued point ends up replaced or permanently non-matching -/

theorem deltasFor_ne_nil (cfg : Config) (find : Cell) : deltasFor cfg find ≠ [] := by
  unfold deltasFor
  split <;> simp [zDeltas, baseDeltas]

theorem rayScan_first (cfg : Config) (find repl : Cell) (hfr : find ≠ repl)
    (hfe : find ≠ "") (fuel : Nat) (st : FillSt) (x y dx dy : Int)
    (hg : GoodSt find st) (hfuel : 1 ≤ fuel) :
    (x, y) ∈ (rayScan cfg find repl fuel st x y dx dy).st.data ∨
      getCell (rayScan cfg find repl fuel st x y dx dy).st.board x y ≠ find := by
  obtain ⟨fuel, rfl⟩ : ∃ f, fuel = f + 1 := ⟨fuel - 1, by omega⟩
  simp only [rayScan]
  by_cases hne : getCell st.board x y ≠ find
  · rw [if_pos hne]
    exact Or.inr hne
  · rw [if_neg hne]
    have hcc : getCell st.board x y = find := not_not.mp hne
    have hnd : (x, y) ∉ st.data := fun hmem => (hg _ hmem) hcc
    have hmem1 : ∀ (walls' : List Point) (hW : ∃ W, walls' = st.walls ++ W),
        (x, y) ∈ (⟨setCell st.board x y repl, st.data ++ [(x, y)],
          walls', st.thisScan ++ [(x, y)]⟩ : FillSt).data :=
      fun _ _ => List.mem_append_right _ (List.mem_singleton_self _)
    by_cases hwb : cfg.length ≠ -1 ∧ getCell st.board x y ∈ cfg.walls
    · rw [if_pos hwb]
      by_cases hmem : countedWallPos cfg x y ∈ st.walls
      · rw [if_pos hmem]
        left
        have hstep := fillFacts_set_step find repl hfr hfe st x y hcc hnd
          st.walls ⟨[], by simp⟩
        have hrest := rayScan_facts cfg find repl hfr hfe fuel _ (x+dx) (y+dy) dx dy
          (fillFacts_goodSt hfr hstep hg)
        exact fillFacts_data_mono hrest (hmem1 st.walls ⟨[], by simp⟩)
      · rw [if_neg hmem]
        by_cases hcap :
            (((st.walls ++ [countedWallPos cfg x y]).length : Nat) : Int) ≥ cfg.length
        · rw [if_pos hcap]
          exact Or.inl (hmem1 _ ⟨[countedWallPos cfg x y], rfl⟩)
        · rw [if_neg hcap]
          left
          have hstep := fillFacts_set_step find repl hfr hfe st x y hcc hnd
            (st.walls ++ [countedWallPos cfg x y]) ⟨[countedWallPos cfg x y], rfl⟩
          have hrest := rayScan_facts cfg find repl hfr hfe fuel _ (x+dx) (y+dy) dx dy
            (fillFacts_goodSt hfr hstep hg)
          exact fillFacts_data_mono hrest (hmem1 _ ⟨[countedWallPos cfg x y], rfl⟩)
    · rw [if_neg hwb]
      left
      have hstep := fillFacts_set_step find repl hfr hfe st x y hcc hnd
        st.walls ⟨[], by simp⟩
      have hrest := rayScan_facts cfg find repl hfr hfe fuel _ (x+dx) (y+dy) dx dy
        (fillFacts_goodSt hfr hstep hg)
      exact fillFacts_data_mono hrest (hmem1 st.walls ⟨[], by simp⟩)

theorem deltaLoop_first (cfg : Config) (find repl : Cell) (hfr : find ≠ repl)
    (hfe : find ≠ "") (fuel : Nat) (st : FillSt) (x y : Int)
    (hg : GoodSt find st) (hfuel : 1 ≤ fuel) :
    (x, y) ∈ (deltaLoop cfg find repl fuel (deltasFor cfg find) st x y).st.data ∨
      getCell (deltaLoop cfg find repl fuel
        (deltasFor cfg find) st x y).st.board x y ≠ find := by
  cases hds : deltasFor cfg find with
  | nil => exact absurd hds (deltasFor_ne_nil cfg find)
  | cons d ds =>
    simp only [deltaLoop]
    have hfirst := rayScan_first cfg find repl hfr hfe fuel st x y d.1 d.2 hg hfuel
    have hray := rayScan_facts cfg find repl hfr hfe fuel st x y d.1 d.2 hg
    cases hres : rayScan cfg find repl fuel st x y d.1 d.2 with
    | capped st1 =>
      rw [hres] at hfirst
      exact hfirst
    | cont st1 x1 y1 =>
      rw [hres] at hfirst hray
      have hrest := deltaLoop_facts cfg find repl hfr hfe fuel ds st1 x1 y1
        (fillFacts_goodSt hfr hray hg)
      rcases hfirst with hfirst | hfirst
      · exact Or.inl (fillFacts_data_mono hrest hfirst)
      · exact Or.inr (fillFacts_notfind_stable hrest hfirst)

theorem pointLoop_seeds (cfg : Config) (find repl : Cell) (hfr : find ≠ repl)
    (hfe : find ≠ "") (hnc : find ∉ cfg.walls) (fuel : Nat) (hfuel : 1 ≤ fuel) :
    ∀ (ps : List Point) (st : FillSt), GoodSt find st →
      ∀ q ∈ ps, q ∈ (pointLoop cfg find repl fuel ps st).st.data ∨
        getCell (pointLoop cfg find repl fuel ps st).st.board q.1 q.2 ≠ find := by
  intro ps
  induction ps with
  | nil =>
    intro st _ q hq
    exact absurd hq (List.not_mem_nil q)
  | cons p ps ih =>
    intro st hg q hq
    obtain ⟨x, y⟩ := p
    simp only [pointLoop]
    obtain ⟨st1, x1, y1, h1⟩ := deltaLoop_nocap cfg find repl hnc fuel
      (deltasFor cfg find) st x y
    rw [h1]
    have hdl := deltaLoop_facts cfg find repl hfr hfe fuel (deltasFor cfg find) st x y hg
    rw [h1] at hdl
    have hg1 : GoodSt find st1 := fillFacts_goodSt hfr hdl hg
    rcases List.mem_cons.mp hq with hq | hq
    · subst hq
      have hfirst := deltaLoop_first cfg find repl hfr hfe fuel st x y hg hfuel
      rw [h1] at hfirst
      have hrest := pointLoop_facts cfg find repl hfr hfe fuel ps st1 hg1
      rcases hfirst with hfirst | hfirst
      · exact Or.inl (fillFacts_data_mono hrest hfirst)
      · exact Or.inr (fillFacts_notfind_stable hrest hfirst)
    · exact ih st1 hg1 q hq

theorem fillLoop_seeds (cfg : Config) (find repl : Cell) (hfr : find ≠ repl)
    (hfe : find ≠ "") (hnc : find ∉ cfg.walls) (rayFuel : Nat) (hray : 1 ≤ rayFuel)
    (fuel : Nat) (hfuel : 1 ≤ fuel) (ns : List Point) (st : FillSt)
    (hg : GoodSt find st) :
    ∀ q ∈ ns, getCell st.board q.1 q.2 = find →
      q ∈ (fillLoop cfg find repl rayFuel fuel ns st).1.data := by
  obtain ⟨fuel, rfl⟩ : ∃ f, fuel = f + 1 := ⟨fuel - 1, by omega⟩
  intro q hq hcell
  simp only [fillLoop]
  by_cases hns : ns.isEmpty
  · rw [List.isEmpty_iff] at hns
    subst hns
    exact absurd hq (List.not_mem_nil q)
  · rw [if_neg hns]
    obtain ⟨st1, x1, y1, h1⟩ := pointLoop_nocap cfg find repl hnc rayFuel ns
      { st with thisScan := [] }
    rw [h1]
    have hpl := pointLoop_facts cfg find repl hfr hfe rayFuel ns
      { st with thisScan := [] } (goodSt_reset hg [])
    rw [h1] at hpl
    have hseeds := pointLoop_seeds cfg find repl hfr hfe hnc rayFuel hray ns
      { st with thisScan := [] } (goodSt_reset hg []) q hq
    rw [h1] at hseeds
    have hmem1 : q ∈ st1.data := by
      rcases hseeds with hs | hs
      · exact hs
      · obtain ⟨_, _, _, hm, _⟩ := hpl
        rcases hm q.1 q.2 with hc | hc
        · exact hc.1
        · exact absurd (hc.trans hcell) hs
    have hrest := fillLoop_facts cfg find repl hfr hfe rayFuel fuel
      (nextFrontier (deltasFor cfg find) st1.data st1.thisScan st1.board) st1
      (fillFacts_goodSt hfr hpl (goodSt_reset hg []))
    exact loopFacts_data_mono hrest hmem1

/-! ## Claim C8 — `fillPoints` misuse warnings -/

/-- C8 counterexample: the claim states that a `fillPoints` call with
`find == replace` is warned about *and the fill is not aborted*.  The code
does warn, but then immediately `return data`: on a board whose seed cell
matches the find character, nothing is scanned — the returned data is the
unchanged input `data` list (empty here) and the board is untouched, so the
fill was aborted. -/
theorem C8_counterexample :
    (fillPoints defaultCfg [(0,0)] "x" "x" [] 5 [["x"]]).data = [] ∧
    (fillPoints defaultCfg [(0,0)] "x" "x" [] 5 [["x"]]).board = [["x"]] ∧
    (fillPoints defaultCfg [(0,0)] "x" "x" [] 5 [["x"]]).warns =
      [warnSameFindReplace "x"] ∧
    getCell [["x"]] 0 0 = "x" ∧
    (fillPoints defaultCfg [(0,0)] "x" "y" [] 5 [["x"]]).data = [(0,0)] := by
  decide

/-- C8 (amended): mismatched find/replace lengths are reported by a warning
and do not abort the fill (with `find ≠ replace` every seed whose cell
matches is still processed and replaced, here stated for a find character
outside the wall set so that the length cap cannot end the call first);
`find == replace` is reported by a warning but *does* abort: the call
returns at once with the board untouched and the `data` list exactly as
passed in. -/
theorem C8_fill_misuse (cfg : Config) (points : List Point) (find repl : Cell)
    (data : List Point) (fuel : Nat) (b : Board) :
    (find.length ≠ repl.length →
      warnLengthsDiffer find repl ∈ (fillPoints cfg points find repl data fuel b).warns) ∧
    (find = repl →
      warnSameFindReplace find ∈ (fillPoints cfg points find repl data fuel b).warns ∧
      (fillPoints cfg points find repl data fuel b).board = b ∧
      (fillPoints cfg points find repl data fuel b).data = data) ∧
    (find ≠ repl → find ≠ "" → find ∉ cfg.walls → 1 ≤ fuel →
      (∀ p ∈ data, getCell b p.1 p.2 ≠ find) →
      ∀ q ∈ points, getCell b q.1 q.2 = find →
        q ∈ (fillPoints cfg points find repl data fuel b).data) := by
  refine ⟨?_, ?_, ?_⟩
  · intro hlen
    unfold fillPoints
    by_cases hfr : find = repl
    · rw [if_pos hfr]
      simp [hlen]
    · rw [if_neg hfr]
      simp [hlen]
  · intro hfr
    unfold fillPoints
    rw [if_pos hfr]
    refine ⟨?_, rfl, rfl⟩
    by_cases hlen : find.length ≠ repl.length
    · simp only [if_pos hlen, if_pos hfr]
      exact List.mem_append_right _ (List.mem_singleton_self _)
    · simp only [if_neg hlen, if_pos hfr]
      exact List.mem_append_right _ (List.mem_singleton_self _)
  · intro hfr hfe hnc hfuel hdata q hq hcell
    unfold fillPoints
    rw [if_neg hfr]
    exact fillLoop_seeds cfg find repl hfr hfe hnc fuel hfuel fuel hfuel points
      ⟨b, data, [], []⟩ hdata q hq hcell

/-- C8 witness: a concrete mismatched-length call that still fills, and a
concrete `find == replace` call that aborts. -/
theorem C8_fill_misuse_witness :
    warnLengthsDiffer "ab" "c" ∈
      (fillPoints defaultCfg [(0,0)] "ab" "c" [] 5 [["ab"]]).warns ∧
    ((0 : Int), (0 : Int)) ∈ (fillPoints defaultCfg [(0,0)] "ab" "c" [] 5 [["ab"]]).data ∧
    (fillPoints defaultCfg [(0,0)] "x" "x" [] 5 [["x"]]).data = [] :=
  ⟨(C8_fill_misuse defaultCfg [(0,0)] "ab" "c" [] 5 [["ab"]]).1 (by decide),
    (C8_fill_misuse defaultCfg [(0,0)] "ab" "c" [] 5 [["ab"]]).2.2 (by decide) (by decide)
      (by decide) (by decide) (by decide) (0, 0) (by decide) (by decide),
    ((C8_fill_misuse defaultCfg [(0,0)] "x" "x" [] 5 [["x"]]).2.1 rfl).2.2⟩

/-! ## Completeness of the frontier computation -/

theorem nfInner_mono (b : Board) (data : List Point) (p : Point) :
    ∀ (D acc : List Point) (q : Point), q ∈ acc →
      q ∈ D.foldl (fun acc d =>
        let q : Point := (p.1 + d.1, p.2 + d.2)
        if inBounds b q.1 q.2 ∧ q ∉ acc ∧ q ∉ data then acc ++ [q] else acc) acc := by
  intro D
  induction D with
  | nil =>
    intro acc q hq
    exact hq
  | cons d D ih =>
    intro acc q hq
    simp only [List.foldl_cons]
    split
    · exact ih _ q (List.mem_append_left _ hq)
    · exact ih _ q hq

theorem nfInner_mem (b : Board) (data : List Point) (p : Point) :
    ∀ (D acc : List Point) (d : Point), d ∈ D →
      inBounds b (p.1 + d.1) (p.2 + d.2) → ((p.1 + d.1, p.2 + d.2) : Point) ∉ data →
      ((p.1 + d.1, p.2 + d.2) : Point) ∈ D.foldl (fun acc d =>
        let q : Point := (p.1 + d.1, p.2 + d.2)
        if inBounds b q.1 q.2 ∧ q ∉ acc ∧ q ∉ data then acc ++ [q] else acc) acc := by
  intro D
  induction D with
  | nil =>
    intro acc d hd
    exact absurd hd (List.not_mem_nil d)
  | cons d0 D ih =>
    intro acc d hd hib hnd
    rcases List.mem_cons.mp hd with hd | hd
    · subst hd
      simp only [List.foldl_cons]
      by_cases hacc : ((p.1 + d.1, p.2 + d.2) : Point) ∈ acc
      · split
        · exact nfInner_mono b data p D _ _ (List.mem_append_left _ hacc)
        · exact nfInner_mono b data p D _ _ hacc
      · rw [if_pos ⟨hib, hacc, hnd⟩]
        exact nfInner_mono b data p D _ _
          (List.mem_append_right _ (List.mem_singleton_self _))
    · simp only [List.foldl_cons]
      split
      · exact ih _ d hd hib hnd
      · exact ih _ d hd hib hnd

theorem nfOuter_mono (b : Board) (data D : List Point) :
    ∀ (ts acc : List Point) (q : Point), q ∈ acc →
      q ∈ ts.foldl (fun acc p =>
        D.foldl (fun acc d =>
          let q : Point := (p.1 + d.1, p.2 + d.2)
          if inBounds b q.1 q.2 ∧ q ∉ acc ∧ q ∉ data then acc ++ [q] else acc) acc) acc := by
  intro ts
  induction ts with
  | nil =>
    intro acc q hq
    exact hq
  | cons t ts ih =>
    intro acc q hq
    simp only [List.foldl_cons]
    exact ih _ q (nfInner_mono b data t D acc q hq)

theorem nextFrontier_complete (b : Board) (data D : List Point) :
    ∀ (ts : List Point) (t : Point), t ∈ ts → ∀ d ∈ D,
      inBounds b (t.1 + d.1) (t.2 + d.2) → ((t.1 + d.1, t.2 + d.2) : Point) ∉ data →
      ((t.1 + d.1, t.2 + d.2) : Point) ∈ nextFrontier D data ts b := by
  have key : ∀ (ts acc : List Point) (t : Point), t ∈ ts → ∀ d ∈ D,
      inBounds b (t.1 + d.1) (t.2 + d.2) → ((t.1 + d.1, t.2 + d.2) : Point) ∉ data →
      ((t.1 + d.1, t.2 + d.2) : Point) ∈ ts.foldl (fun acc p =>
        D.foldl (fun acc d =>
          let q : Point := (p.1 + d.1, p.2 + d.2)
          if inBounds b q.1 q.2 ∧ q ∉ acc ∧ q ∉ data then acc ++ [q] else acc) acc) acc := by
    intro ts
    induction ts with
    | nil =>
      intro acc t ht
      exact absurd ht (List.not_mem_nil t)
    | cons t0 ts ih =>
      intro acc t ht d hd hib hnd
      rcases List.mem_cons.mp ht with ht | ht
      · subst ht
        simp only [List.foldl_cons]
        exact nfOuter_mono b data D ts _ _ (nfInner_mem b data t D acc d hd hib hnd)
      · simp only [List.foldl_cons]
        exact ih _ t ht d hd hib hnd
  intro ts t ht d hd hib hnd
  exact key ts [] t ht d hd hib hnd

/-! ## Closure of a finished fill

`Promises` is the loop invariant of `fillPoints`: every delta-neighbour of a
recorded point is itself recorded, or still queued (`ps`), or a neighbour of
a cell replaced in the current pass (`ts`, whose neighbours the frontier
computation will queue), or permanently non-matching.  When the loop ends
with an empty frontier this collapses to `Closed`: no matching cell is
adjacent to a replaced cell. -/

def Promises (cfg : Config) (find : Cell) (b : Board) (data ps ts : List Point) : Prop :=
  ∀ p ∈ data, ∀ d ∈ deltasFor cfg find,
    ((p.1 + d.1, p.2 + d.2) : Point) ∈ data ∨
    ((p.1 + d.1, p.2 + d.2) : Point) ∈ ps ∨
    (∃ t ∈ ts, ∃ d' ∈ deltasFor cfg find,
      ((p.1 + d.1, p.2 + d.2) : Point) = (t.1 + d'.1, t.2 + d'.2)) ∨
    getCell b (p.1 + d.1) (p.2 + d.2) ≠ find

def Closed (cfg : Config) (find : Cell) (b : Board) (data : List Point) : Prop :=
  ∀ p ∈ data, ∀ d ∈ deltasFor cfg find,
    ((p.1 + d.1, p.2 + d.2) : Point) ∈ data ∨
    getCell b (p.1 + d.1) (p.2 + d.2) ≠ find

theorem promises_transport {cfg : Config} {find repl : Cell} {st st' : FillSt}
    {ps : List Point} (h : FillFacts find repl st st')
    (hp : Promises cfg find st.board st.data ps st.thisScan) :
    Promises cfg find st'.board st'.data ps st'.thisScan := by
  obtain ⟨⟨Δ, hd, ht, _⟩, _, _, hm, hn⟩ := h
  intro p hpmem d hdmem
  by_cases hold : p ∈ st.data
  · rcases hp p hold d hdmem with h1 | h1 | h1 | h1
    · exact Or.inl (by rw [hd]; exact List.mem_append_left Δ h1)
    · exact Or.inr (Or.inl h1)
    · obtain ⟨t, htmem, d', hd', heq⟩ := h1
      exact Or.inr (Or.inr (Or.inl ⟨t, by rw [ht]; exact List.mem_append_left Δ htmem,
        d', hd', heq⟩))
    · refine Or.inr (Or.inr (Or.inr ?_))
      rcases hm (p.1 + d.1) (p.2 + d.2) with hc | hc
      · exact absurd (hn _ _ hc.1 hc.2).1 h1
      · rw [hc]
        exact h1
  · have hΔ : p ∈ Δ := by
      rw [hd] at hpmem
      rcases List.mem_append.mp hpmem with h1 | h1
      · exact absurd h1 hold
      · exact h1
    refine Or.inr (Or.inr (Or.inl ⟨p, ?_, d, hdmem, rfl⟩))
    rw [ht]
    exact List.mem_append_right _ hΔ

theorem promises_head_discharge {cfg : Config} {find : Cell} {b : Board}
    {data ps ts : List Point} {q0 : Point}
    (hp : Promises cfg find b data (q0 :: ps) ts)
    (hq0 : q0 ∈ data ∨ getCell b q0.1 q0.2 ≠ find) :
    Promises cfg find b data ps ts := by
  intro p hpmem d hdmem
  rcases hp p hpmem d hdmem with h1 | h1 | h1 | h1
  · exact Or.inl h1
  · rcases List.mem_cons.mp h1 with h1 | h1
    · rcases hq0 with hq0 | hq0
      · exact Or.inl (h1 ▸ hq0)
      · refine Or.inr (Or.inr (Or.inr ?_))
        subst h1
        simpa using hq0
    · exact Or.inr (Or.inl h1)
  · exact Or.inr (Or.inr (Or.inl h1))
  · exact Or.inr (Or.inr (Or.inr h1))

theorem promises_to_closed {cfg : Config} {find : Cell} {b : Board} {data : List Point}
    (hp : Promises cfg find b data [] []) : Closed cfg find b data := by
  intro p hpmem d hdmem
  rcases hp p hpmem d hdmem with h1 | h1 | h1 | h1
  · exact Or.inl h1
  · exact absurd h1 (List.not_mem_nil _)
  · obtain ⟨t, htmem, _⟩ := h1
    exact absurd htmem (List.not_mem_nil t)
  · exact Or.inr h1

theorem promises_frontier {cfg : Config} {find : Cell} {b : Board}
    {data ts : List Point} (hfe : find ≠ "")
    (hp : Promises cfg find b data [] ts) :
    Promises cfg find b data (nextFrontier (deltasFor cfg find) data ts b) [] := by
  intro p hpmem d hdmem
  rcases hp p hpmem d hdmem with h1 | h1 | h1 | h1
  · exact Or.inl h1
  · exact absurd h1 (List.not_mem_nil _)
  · obtain ⟨t, htmem, d', hd', heq⟩ := h1
    by_cases hmem : ((p.1 + d.1, p.2 + d.2) : Point) ∈ data
    · exact Or.inl hmem
    · by_cases hib : inBounds b (p.1 + d.1) (p.2 + d.2)
      · refine Or.inr (Or.inl ?_)
        have := nextFrontier_complete b data (deltasFor cfg find) ts t htmem d' hd'
          (by rw [show t.1 + d'.1 = p.1 + d.1 from (congrArg Prod.fst heq).symm,
            show t.2 + d'.2 = p.2 + d.2 from (congrArg Prod.snd heq).symm]; exact hib)
          (by rw [← heq]; exact hmem)
        rw [← heq] at this
        exact this
      · refine Or.inr (Or.inr (Or.inr ?_))
        rw [get_eq_empty_of_not_inBounds b _ _ hib]
        exact fun h => hfe h.symm
  · exact Or.inr (Or.inr (Or.inr h1))

theorem pointLoop_promises (cfg : Config) (find repl : Cell) (hfr : find ≠ repl)
    (hfe : find ≠ "") (hnc : find ∉ cfg.walls) (fuel : Nat) (hfuel : 1 ≤ fuel) :
    ∀ (ps : List Point) (st : FillSt), GoodSt find st →
      Promises cfg find st.board st.data ps st.thisScan →
      Promises cfg find (pointLoop cfg find repl fuel ps st).st.board
        (pointLoop cfg find repl fuel ps st).st.data []
        (pointLoop cfg find repl fuel ps st).st.thisScan := by
  intro ps
  induction ps with
  | nil =>
    intro st _ hp
    exact hp
  | cons p ps ih =>
    intro st hg hp
    obtain ⟨x, y⟩ := p
    simp only [pointLoop]
    obtain ⟨st1, x1, y1, h1⟩ := deltaLoop_nocap cfg find repl hnc fuel
      (deltasFor cfg find) st x y
    rw [h1]
    have hdl := deltaLoop_facts cfg find repl hfr hfe fuel (deltasFor cfg find) st x y hg
    rw [h1] at hdl
    have hfirst := deltaLoop_first cfg find repl hfr hfe fuel st x y hg hfuel
    rw [h1] at hfirst
    have hp1 : Promises cfg find st1.board st1.data ((x, y) :: ps) st1.thisScan :=
      promises_transport hdl hp
    exact ih st1 (fillFacts_goodSt hfr hdl hg) (promises_head_discharge hp1 hfirst)

theorem fillLoop_closed (cfg : Config) (find repl : Cell) (hfr : find ≠ repl)
    (hfe : find ≠ "") (hnc : find ∉ cfg.walls) (rayFuel : Nat) (hray : 1 ≤ rayFuel) :
    ∀ (fuel : Nat) (ns : List Point) (st : FillSt), GoodSt find st →
      Promises cfg find st.board st.data ns [] →
      (fillLoop cfg find repl rayFuel fuel ns st).2 = true →
      Closed cfg find (fillLoop cfg find repl rayFuel fuel ns st).1.board
          (fillLoop cfg find repl rayFuel fuel ns st).1.data ∧
        (∀ q ∈ ns, q ∈ (fillLoop cfg find repl rayFuel fuel ns st).1.data ∨
          getCell (fillLoop cfg find repl rayFuel fuel ns st).1.board q.1 q.2 ≠ find) := by
  intro fuel
  induction fuel with
  | zero =>
    intro ns st _ hp hdone
    simp only [fillLoop] at hdone ⊢
    rw [List.isEmpty_iff] at hdone
    subst hdone
    exact ⟨promises_to_closed hp, fun q hq => absurd hq (List.not_mem_nil q)⟩
  | succ fuel ih =>
    intro ns st hg hp hdone
    simp only [fillLoop] at hdone ⊢
    by_cases hns : ns.isEmpty
    · rw [if_pos hns] at hdone ⊢
      rw [List.isEmpty_iff] at hns
      subst hns
      exact ⟨promises_to_closed hp, fun q hq => absurd hq (List.not_mem_nil q)⟩
    · rw [if_neg hns] at hdone ⊢
      obtain ⟨st1, x1, y1, h1⟩ := pointLoop_nocap cfg find repl hnc rayFuel ns
        { st with thisScan := [] }
      rw [h1] at hdone ⊢
      have hpl := pointLoop_facts cfg find repl hfr hfe rayFuel ns
        { st with thisScan := [] } (goodSt_reset hg [])
      rw [h1] at hpl
      have hg1 : GoodSt find st1 := fillFacts_goodSt hfr hpl (goodSt_reset hg [])
      have hpr1 : Promises cfg find st1.board st1.data [] st1.thisScan := by
        have := pointLoop_promises cfg find repl hfr hfe hnc rayFuel hray ns
          { st with thisScan := [] } (goodSt_reset hg []) hp
        rw [h1] at this
        exact this
      have hpr2 : Promises cfg find st1.board st1.data
          (nextFrontier (deltasFor cfg find) st1.data st1.thisScan st1.board) [] :=
        promises_frontier hfe hpr1
      have hrec := ih (nextFrontier (deltasFor cfg find) st1.data st1.thisScan st1.board)
        st1 hg1 hpr2 hdone
      refine ⟨hrec.1, ?_⟩
      intro q hq
      have hseed := pointLoop_seeds cfg find repl hfr hfe hnc rayFuel hray ns
        { st with thisScan := [] } (goodSt_reset hg []) q hq
      rw [h1] at hseed
      have hrest := fillLoop_facts cfg find repl hfr hfe rayFuel fuel
        (nextFrontier (deltasFor cfg find) st1.data st1.thisScan st1.board) st1 hg1
      rcases hseed with hs | hs
      · exact Or.inl (loopFacts_data_mono hrest hs)
      · exact Or.inr (loopFacts_notfind_stable hrest hs)

theorem fillLoop_empty_done (cfg : Config) (find repl : Cell) (rayFuel : Nat) :
    ∀ (fuel : Nat) (st : FillSt),
      (fillLoop cfg find repl rayFuel fuel [] st).2 = true := by
  intro fuel st
  cases fuel with
  | zero => rfl
  | succ fuel => simp [fillLoop]

/-- Enough fuel: each pass of the outer loop either replaces at least one
cell (so the number of matching cells strictly drops) or replaces nothing,
in which case the next frontier is empty and the loop stops. -/
theorem fillLoop_done (cfg : Config) (find repl : Cell) (hfr : find ≠ repl)
    (hfe : find ≠ "") (hnc : find ∉ cfg.walls) (rayFuel : Nat) :
    ∀ (fuel : Nat) (ns : List Point) (st : FillSt), GoodSt find st →
      countCells st.board find + 2 ≤ fuel →
      (fillLoop cfg find repl rayFuel fuel ns st).2 = true := by
  intro fuel
  induction fuel with
  | zero =>
    intro ns st _ hb
    omega
  | succ fuel ih =>
    intro ns st hg hb
    simp only [fillLoop]
    by_cases hns : ns.isEmpty
    · rw [if_pos hns]
    · rw [if_neg hns]
      obtain ⟨st1, x1, y1, h1⟩ := pointLoop_nocap cfg find repl hnc rayFuel ns
        { st with thisScan := [] }
      rw [h1]
      have hpl := pointLoop_facts cfg find repl hfr hfe rayFuel ns
        { st with thisScan := [] } (goodSt_reset hg [])
      rw [h1] at hpl
      have hg1 : GoodSt find st1 := fillFacts_goodSt hfr hpl (goodSt_reset hg [])
      simp only [FillRes.st] at hpl
      obtain ⟨⟨Δ, hd, ht, hc⟩, _⟩ := hpl
      cases Δ with
      | nil =>
        have hts : st1.thisScan = [] := by simpa using ht
        have hgoal : (fillLoop cfg find repl rayFuel fuel
            (nextFrontier (deltasFor cfg find) st1.data st1.thisScan st1.board)
            st1).2 = true := by
          rw [hts]
          unfold nextFrontier
          simp only [List.foldl_nil]
          exact fillLoop_empty_done cfg find repl rayFuel fuel st1
        exact hgoal
      | cons q Δ =>
        refine ih _ st1 hg1 ?_
        simp only [List.length_cons] at hc
        omega

/-! ## Template transform and parsing (source lines 179-204, 1020-1070)

Python string operations are modelled on `List Char`:  `splitEol` is
`str.split('\n')`, `pyRstrip` is `str.rstrip()` (the whitespace set Python
strips), `normEol` is the pair of `replace` calls of `parseTemplate` that
rewrite `"\r\n"` and then `"\r"` to `"\n"` — note the source applies them
*after* `transform`. -/

def isPySpace (c : Char) : Bool :=
  c = ' ' ∨ c = '\t' ∨ c = '\n' ∨ c = '\r' ∨ c = '\x0b' ∨ c = '\x0c'

def pyRstrip (l : List Char) : List Char :=
  (l.reverse.dropWhile isPySpace).reverse

def splitEol : List Char → List (List Char)
  | [] => [[]]
  | c :: rest =>
    if c = '\n' then [] :: splitEol rest
    else
      match splitEol rest with
      | l :: ls => (c :: l) :: ls
      | [] => [[c]]

def normEol : List Char → List Char
  | [] => []
  | [c] => if c = '\r' then ['\n'] else [c]
  | c :: c2 :: rest =>
    if c = '\r' then
      if c2 = '\n' then '\n' :: normEol rest
      else '\n' :: normEol (c2 :: rest)
    else c :: normEol (c2 :: rest)

/-- `getMacroCharMap`: the microspace shape mask of a character; unmapped
characters become a solid 3×3 block (`[c*3]*3`). -/
def getMacroCharMap (c : String) : List String :=
  if c = "/" then ["  /", " / ", "/  "]
  else if c = "|" then [" | ", " | ", " | "]
  else if c = "\\" then ["\\  ", " \\ ", "  \\"]
  else if c = "_" then ["   ", "   ", "___"]
  else if c = "-" then ["   ", "---", "   "]
  else [c ++ c ++ c, c ++ c ++ c, c ++ c ++ c]

/-- One line of the microspace expansion: `temp[i] += chars[i]` for the
three sub-lines. -/
def expandLine (line : List Char) : List Char × List Char × List Char :=
  line.foldl (fun t c =>
    let m := getMacroCharMap (String.mk [c])
    (t.1 ++ (m.getD 0 "").data, t.2.1 ++ (m.getD 1 "").data,
      t.2.2 ++ (m.getD 2 "").data))
    ([], [], [])

/-- The microspace branch of `transform`: each input line becomes its three
expanded sub-lines, each terminated by the end-of-line character. -/
def microExpand (tpl : List Char) : List Char :=
  List.flatten ((splitEol tpl).map (fun line =>
    let t := expandLine line
    t.1 ++ ['\n'] ++ t.2.1 ++ ['\n'] ++ t.2.2 ++ ['\n']))

def maxLineLen (lines : List (List Char)) : Nat :=
  lines.foldl (fun m l => max m l.length) 0

/-- One padded line of `transform`: left pad, right-stripped line, then
space fill up to `pad + max_len`. -/
def padLine (cfg : Config) (maxLen : Nat) (l : List Char) : List Char :=
  List.replicate cfg.pad ' ' ++ pyRstrip l ++
    List.replicate (cfg.pad + maxLen - (pyRstrip l).length) ' '

/-- `transform` (source lines 1033-1070): optional microspace expansion,
then the whitespace frame. -/
def transformL (cfg : Config) (tpl : List Char) : List Char :=
  let tpl1 := if cfg.use_microspace then microExpand tpl else tpl
  let lines := splitEol tpl1
  let maxLen := maxLineLen lines
  let top := List.replicate (maxLen + 2 * cfg.pad) ' ' ++ ['\n']
  List.flatten (List.replicate cfg.pad top) ++
    List.flatten (lines.map (fun l => padLine cfg maxLen l ++ ['\n'])) ++
    List.flatten (List.replicate cfg.pad top)

def cellsOfLine (l : List Char) : List Cell := l.map (fun c => String.mk [c])

/-- `parseTemplate(template, create_maze=False)`: transform, then end-of-line
normalisation, then split into the character board. -/
def parseBoard (cfg : Config) (tpl : List Char) : Board :=
  (splitEol (normEol (transformL cfg tpl))).map cellsOfLine

/-- `toString(raw=True)`: concatenate every cell of every row, terminating
each row with the output end-of-line. -/
def toStringRaw (b : Board) : List Char :=
  List.flatten (b.map (fun row => List.flatten (row.map String.data) ++ ['\n']))

/-- `getBlockAt` (source lines 444-451): the `w`×`h` block of concatenated
`get` results starting at `(x,y)`. -/
def getBlockAt (b : Board) (x y : Int) (w h : Nat) : List String :=
  (List.range h).map (fun (j : Nat) =>
    ((List.range w).map (fun (i : Nat) =>
      getCell b (x + (i : Int)) (y + (j : Int)))).foldl (· ++ ·) "")

/-! ## Structure of the transformed template -/

theorem splitEol_append_line (r : List Char) (hs : '\n' ∉ r) (s : List Char) :
    splitEol (r ++ '\n' :: s) = r :: splitEol s := by
  induction r with
  | nil => simp [splitEol]
  | cons c r ih =>
    have hc : c ≠ '\n' := fun h => hs (h ▸ List.mem_cons_self c r)
    have hr : '\n' ∉ r := fun h => hs (List.mem_cons_of_mem c h)
    simp only [List.cons_append, splitEol, if_neg hc, List.append_eq]
    rw [ih hr]

theorem splitEol_flatten (rows : List (List Char)) (h : ∀ l ∈ rows, '\n' ∉ l) :
    splitEol (List.flatten (rows.map (· ++ ['\n']))) = rows ++ [[]] := by
  induction rows with
  | nil => simp [splitEol]
  | cons r rows ih =>
    simp only [List.map_cons, List.flatten_cons]
    rw [show (r ++ ['\n']) ++ List.flatten (rows.map (· ++ ['\n'])) =
        r ++ '\n' :: List.flatten (rows.map (· ++ ['\n'])) by simp]
    rw [splitEol_append_line r (h r (List.mem_cons_self r rows))]
    rw [ih (fun l hl => h l (List.mem_cons_of_mem r hl))]
    rfl

theorem splitEol_no_newline : ∀ (t l : List Char), l ∈ splitEol t → '\n' ∉ l := by
  intro t
  induction t with
  | nil =>
    intro l hl
    simp only [splitEol, List.mem_singleton] at hl
    subst hl
    exact List.not_mem_nil '\n'
  | cons c t ih =>
    intro l hl
    simp only [splitEol] at hl
    by_cases hc : c = '\n'
    · rw [if_pos hc] at hl
      rcases List.mem_cons.mp hl with h | h
      · subst h
        exact List.not_mem_nil '\n'
      · exact ih l h
    · rw [if_neg hc] at hl
      cases hsp : splitEol t with
      | nil =>
        rw [hsp] at hl
        simp only [List.mem_singleton] at hl
        subst hl
        intro hmem
        rcases List.mem_singleton.mp hmem with h
        exact hc h.symm
      | cons l0 ls =>
        rw [hsp] at hl
        rcases List.mem_cons.mp hl with h | h
        · subst h
          intro hmem
          rcases List.mem_cons.mp hmem with h | h
          · exact hc h.symm
          · exact ih l0 (hsp ▸ List.mem_cons_self l0 ls) h
        · exact ih l (hsp ▸ List.mem_cons_of_mem l0 h)

theorem normEol_id : ∀ (s : List Char), '\r' ∉ s → normEol s = s
  | [], _ => rfl
  | [c], h => by
      have hc : c ≠ '\r' := fun hh => h (hh ▸ List.mem_cons_self c [])
      simp [normEol, hc]
  | c :: c2 :: rest, h => by
      have hc : c ≠ '\r' := fun hh => h (hh ▸ List.mem_cons_self c (c2 :: rest))
      have h2 : '\r' ∉ c2 :: rest := fun hh => h (List.mem_cons_of_mem c hh)
      simp only [normEol, if_neg hc]
      rw [normEol_id (c2 :: rest) h2]

theorem mem_pyRstrip_subset {c : Char} {l : List Char} (h : c ∈ pyRstrip l) : c ∈ l := by
  unfold pyRstrip at h
  rw [List.mem_reverse] at h
  have := (List.dropWhile_sublist isPySpace (l := l.reverse)).subset h
  rwa [List.mem_reverse] at this

theorem pyRstrip_length_le (l : List Char) : (pyRstrip l).length ≤ l.length := by
  unfold pyRstrip
  rw [List.length_reverse]
  calc (l.reverse.dropWhile isPySpace).length ≤ l.reverse.length :=
        (List.dropWhile_sublist isPySpace).length_le
    _ = l.length := List.length_reverse l

theorem splitEol_mem_subset : ∀ (t l : List Char), l ∈ splitEol t → ∀ c ∈ l, c ∈ t := by
  intro t
  induction t with
  | nil =>
    intro l hl c hc
    simp only [splitEol, List.mem_singleton] at hl
    subst hl
    exact absurd hc (List.not_mem_nil c)
  | cons a t ih =>
    intro l hl c hc
    simp only [splitEol] at hl
    by_cases ha : a = '\n'
    · rw [if_pos ha] at hl
      rcases List.mem_cons.mp hl with h | h
      · subst h
        exact absurd hc (List.not_mem_nil c)
      · exact List.mem_cons_of_mem a (ih l h c hc)
    · rw [if_neg ha] at hl
      cases hsp : splitEol t with
      | nil =>
        rw [hsp] at hl
        simp only [List.mem_singleton] at hl
        subst hl
        rcases List.mem_singleton.mp hc with h
        exact h ▸ List.mem_cons_self a t
      | cons l0 ls =>
        rw [hsp] at hl
        rcases List.mem_cons.mp hl with h | h
        · subst h
          rcases List.mem_cons.mp hc with h | h
          · exact h ▸ List.mem_cons_self a t
          · exact List.mem_cons_of_mem a (ih l0 (hsp ▸ List.mem_cons_self l0 ls) c h)
        · exact List.mem_cons_of_mem a (ih l (hsp ▸ List.mem_cons_of_mem l0 h) c hc)

theorem maxLineLen_ge : ∀ (lines : List (List Char)) (acc : Nat),
    (∀ l ∈ lines, l.length ≤ lines.foldl (fun m l => max m l.length) acc) ∧
    acc ≤ lines.foldl (fun m l => max m l.length) acc := by
  intro lines
  induction lines with
  | nil =>
    intro acc
    exact ⟨fun l hl => absurd hl (List.not_mem_nil l), Nat.le_refl acc⟩
  | cons r lines ih =>
    intro acc
    simp only [List.foldl_cons]
    refine ⟨?_, ?_⟩
    · intro l hl
      rcases List.mem_cons.mp hl with h | h
      · subst h
        exact le_trans (le_max_right acc l.length) (ih (max acc l.length)).2
      · exact (ih (max acc r.length)).1 l h
    · exact le_trans (le_max_left acc r.length) (ih (max acc r.length)).2

theorem mem_maxLineLen (lines : List (List Char)) (l : List Char) (hl : l ∈ lines) :
    l.length ≤ maxLineLen lines :=
  (maxLineLen_ge lines 0).1 l hl

theorem padLine_length (cfg : Config) (maxLen : Nat) (l : List Char)
    (hl : l.length ≤ maxLen) :
    (padLine cfg maxLen l).length = maxLen + 2 * cfg.pad := by
  unfold padLine
  have hs := le_trans (pyRstrip_length_le l) hl
  simp only [List.length_append, List.length_replicate]
  omega

/-- The rows of a transformed (non-microspace) template: `pad` all-space
rows, then one padded row per input line, then `pad` all-space rows. -/
def padRows (cfg : Config) (t : List Char) : List (List Char) :=
  List.replicate cfg.pad (List.replicate (maxLineLen (splitEol t) + 2 * cfg.pad) ' ') ++
    (splitEol t).map (padLine cfg (maxLineLen (splitEol t))) ++
    List.replicate cfg.pad (List.replicate (maxLineLen (splitEol t) + 2 * cfg.pad) ' ')

theorem transformL_eq (cfg : Config) (t : List Char) (hms : cfg.use_microspace = false) :
    transformL cfg t = List.flatten ((padRows cfg t).map (· ++ ['\n'])) := by
  unfold transformL padRows
  rw [if_neg (by rw [hms]; exact Bool.false_ne_true)]
  simp only [List.map_append, List.flatten_append, List.map_replicate, List.map_map]
  rfl

theorem padRows_no_newline (cfg : Config) (t : List Char) :
    ∀ l ∈ padRows cfg t, '\n' ∉ l := by
  intro l hl
  unfold padRows at hl
  rcases List.mem_append.mp hl with h | h
  · rcases List.mem_append.mp h with h | h
    · rw [List.eq_of_mem_replicate h]
      intro hmem
      exact (by decide : ('\n' : Char) ≠ ' ') (List.eq_of_mem_replicate hmem)
    · obtain ⟨l0, hl0, rfl⟩ := List.mem_map.mp h
      intro hmem
      unfold padLine at hmem
      rcases List.mem_append.mp hmem with h2 | h2
      · rcases List.mem_append.mp h2 with h2 | h2
        · exact (by decide : ('\n' : Char) ≠ ' ') (List.eq_of_mem_replicate h2)
        · exact splitEol_no_newline t l0 hl0 (mem_pyRstrip_subset h2)
      · exact (by decide : ('\n' : Char) ≠ ' ') (List.eq_of_mem_replicate h2)
  · rw [List.eq_of_mem_replicate h]
    intro hmem
    exact (by decide : ('\n' : Char) ≠ ' ') (List.eq_of_mem_replicate hmem)

theorem padRows_no_cr (cfg : Config) (t : List Char) (hr : '\r' ∉ t) :
    ∀ l ∈ padRows cfg t, '\r' ∉ l := by
  intro l hl
  unfold padRows at hl
  rcases List.mem_append.mp hl with h | h
  · rcases List.mem_append.mp h with h | h
    · rw [List.eq_of_mem_replicate h]
      intro hmem
      exact (by decide : ('\r' : Char) ≠ ' ') (List.eq_of_mem_replicate hmem)
    · obtain ⟨l0, hl0, rfl⟩ := List.mem_map.mp h
      intro hmem
      unfold padLine at hmem
      rcases List.mem_append.mp hmem with h2 | h2
      · rcases List.mem_append.mp h2 with h2 | h2
        · exact (by decide : ('\r' : Char) ≠ ' ') (List.eq_of_mem_replicate h2)
        · exact hr (splitEol_mem_subset t l0 hl0 '\r' (mem_pyRstrip_subset h2))
      · exact (by decide : ('\r' : Char) ≠ ' ') (List.eq_of_mem_replicate h2)
  · rw [List.eq_of_mem_replicate h]
    intro hmem
    exact (by decide : ('\r' : Char) ≠ ' ') (List.eq_of_mem_replicate hmem)

theorem parseBoard_eq (cfg : Config) (t : List Char) (hms : cfg.use_microspace = false)
    (hr : '\r' ∉ t) :
    parseBoard cfg t = (padRows cfg t).map cellsOfLine ++ [[]] := by
  unfold parseBoard
  rw [transformL_eq cfg t hms]
  rw [normEol_id _ (by
    intro hmem
    obtain ⟨piece, hpiece, hcm⟩ := List.mem_flatten.mp hmem
    obtain ⟨row, hrow, rfl⟩ := List.mem_map.mp hpiece
    rcases List.mem_append.mp hcm with h | h
    · exact padRows_no_cr cfg t hr row hrow h
    · exact (by decide : ('\r' : Char) ≠ '\n') (List.mem_singleton.mp h))]
  rw [splitEol_flatten (padRows cfg t) (padRows_no_newline cfg t)]
  simp [cellsOfLine]

theorem getD_append_lt {α : Type} (l1 l2 : List α) (n : Nat) (h : n < l1.length) (d : α) :
    (l1 ++ l2).getD n d = l1.getD n d := by
  induction l1 generalizing n with
  | nil => simp at h
  | cons a l1 ih =>
    cases n with
    | zero => rfl
    | succ n =>
      simp only [List.length_cons, Nat.succ_lt_succ_iff] at h
      simpa using ih n h

theorem getD_append_ge {α : Type} (l1 l2 : List α) (n : Nat) (h : l1.length ≤ n) (d : α) :
    (l1 ++ l2).getD n d = l2.getD (n - l1.length) d := by
  induction l1 generalizing n with
  | nil => simp
  | cons a l1 ih =>
    cases n with
    | zero => simp at h
    | succ n =>
      simp only [List.length_cons, Nat.succ_le_succ_iff] at h
      simpa using ih n h

theorem getD_map_lt {α β : Type} (f : α → β) (l : List α) (n : Nat) (h : n < l.length)
    (d : β) (d' : α) : (l.map f).getD n d = f (l.getD n d') := by
  induction l generalizing n with
  | nil => simp at h
  | cons a l ih =>
    cases n with
    | zero => rfl
    | succ n =>
      simp only [List.length_cons, Nat.succ_lt_succ_iff] at h
      simpa using ih n h

theorem getD_replicate {α : Type} (v d : α) (k n : Nat) (h : n < k) :
    (List.replicate k v).getD n d = v := by
  induction k generalizing n with
  | zero => omega
  | succ k ih =>
    cases n with
    | zero => rfl
    | succ n =>
      simpa [List.replicate] using ih n (by omega)

/-- Cell lookup on a board of the form `rows.map cellsOfLine ++ [[]]`. -/
theorem getCell_padBoard (rs : List (List Char)) (x y : Int) (hy0 : 0 ≤ y)
    (hy : y.toNat < rs.length) (hx0 : 0 ≤ x)
    (hx : x.toNat < (rs.getD y.toNat []).length) :
    getCell (rs.map cellsOfLine ++ [[]]) x y =
      String.mk [(rs.getD y.toNat []).getD x.toNat ' '] := by
  have hrow : (rs.map cellsOfLine ++ [[]]).getD y.toNat [] =
      cellsOfLine (rs.getD y.toNat []) := by
    rw [getD_append_lt _ _ _ (by simpa using hy), getD_map_lt cellsOfLine rs y.toNat hy []
      []]
  have hib : inBounds (rs.map cellsOfLine ++ [[]]) x y := by
    refine ⟨hy0, by simpa using Nat.lt_succ_of_lt (by simpa using hy), hx0, ?_⟩
    rw [hrow]
    simpa [cellsOfLine] using hx
  unfold getCell
  rw [if_pos hib, hrow]
  unfold cellsOfLine
  rw [getD_map_lt _ _ _ hx "" ' ']

theorem padLine_getD_left (cfg : Config) (maxLen : Nat) (l : List Char) (j : Nat)
    (hj : j < cfg.pad) : (padLine cfg maxLen l).getD j ' ' = ' ' := by
  unfold padLine
  rw [getD_append_lt _ _ _ (by rw [List.length_append, List.length_replicate]; omega) ' ']
  rw [getD_append_lt _ _ _ (by rw [List.length_replicate]; omega) ' ']
  exact getD_replicate ' ' ' ' cfg.pad j hj

theorem padLine_getD_right (cfg : Config) (maxLen : Nat) (l : List Char) (j : Nat)
    (h1 : cfg.pad + (pyRstrip l).length ≤ j) (hj : j < maxLen + 2 * cfg.pad) :
    (padLine cfg maxLen l).getD j ' ' = ' ' := by
  unfold padLine
  rw [getD_append_ge _ _ _ (by rw [List.length_append, List.length_replicate]; omega) ' ']
  rw [List.length_append, List.length_replicate]
  refine getD_replicate ' ' ' ' _ _ ?_
  omega

/-! ## Fills never change the board's dimensions

These hold with no hypotheses at all: the only mutation anywhere in
`fillPoints` is the single-cell `set`, which preserves every row length, so
no fill — and hence no wall knock-down or room claim of the carving walk,
all of which go through `fill` — can ever create or mark a cell outside the
original board. -/

theorem rayScan_shape (cfg : Config) (find repl : Cell) :
    ∀ (fuel : Nat) (st : FillSt) (x2 y2 dx dy : Int),
      shape (rayScan cfg find repl fuel st x2 y2 dx dy).st.board = shape st.board := by
  intro fuel
  induction fuel with
  | zero => intro st x2 y2 dx dy; rfl
  | succ fuel ih =>
    intro st x2 y2 dx dy
    simp only [rayScan]
    by_cases hne : getCell st.board x2 y2 ≠ find
    · rw [if_pos hne]
      rfl
    · rw [if_neg hne]
      by_cases hwb : cfg.length ≠ -1 ∧ getCell st.board x2 y2 ∈ cfg.walls
      · rw [if_pos hwb]
        by_cases hmem : countedWallPos cfg x2 y2 ∈ st.walls
        · rw [if_pos hmem]
          rw [ih]
          exact shape_setCell st.board x2 y2 repl
        · rw [if_neg hmem]
          by_cases hcap :
              (((st.walls ++ [countedWallPos cfg x2 y2]).length : Nat) : Int) ≥ cfg.length
          · rw [if_pos hcap]
            exact shape_setCell st.board x2 y2 repl
          · rw [if_neg hcap]
            rw [ih]
            exact shape_setCell st.board x2 y2 repl
      · rw [if_neg hwb]
        rw [ih]
        exact shape_setCell st.board x2 y2 repl

theorem deltaLoop_shape (cfg : Config) (find repl : Cell) (fuel : Nat) :
    ∀ (ds : List Point) (st : FillSt) (x2 y2 : Int),
      shape (deltaLoop cfg find repl fuel ds st x2 y2).st.board = shape st.board := by
  intro ds
  induction ds with
  | nil => intro st x2 y2; rfl
  | cons d ds ih =>
    intro st x2 y2
    simp only [deltaLoop]
    have h1 := rayScan_shape cfg find repl fuel st x2 y2 d.1 d.2
    cases hres : rayScan cfg find repl fuel st x2 y2 d.1 d.2 with
    | capped st' =>
      rw [hres] at h1
      exact h1
    | cont st' x1 y1 =>
      rw [hres] at h1
      rw [ih st' x1 y1]
      exact h1

theorem pointLoop_shape (cfg : Config) (find repl : Cell) (fuel : Nat) :
    ∀ (ps : List Point) (st : FillSt),
      shape (pointLoop cfg find repl fuel ps st).st.board = shape st.board := by
  intro ps
  induction ps with
  | nil => intro st; rfl
  | cons p ps ih =>
    intro st
    obtain ⟨x, y⟩ := p
    simp only [pointLoop]
    have h1 := deltaLoop_shape cfg find repl fuel (deltasFor cfg find) st x y
    cases hres : deltaLoop cfg find repl fuel (deltasFor cfg find) st x y with
    | capped st' =>
      rw [hres] at h1
      exact h1
    | cont st' x1 y1 =>
      rw [hres] at h1
      rw [ih st']
      exact h1

theorem fillLoop_shape (cfg : Config) (find repl : Cell) (rayFuel : Nat) :
    ∀ (fuel : Nat) (ns : List Point) (st : FillSt),
      shape (fillLoop cfg find repl rayFuel fuel ns st).1.board = shape st.board := by
  intro fuel
  induction fuel with
  | zero => intro ns st; rfl
  | succ fuel ih =>
    intro ns st
    simp only [fillLoop]
    by_cases hns : ns.isEmpty
    · rw [if_pos hns]
    · rw [if_neg hns]
      have h1 := pointLoop_shape cfg find repl rayFuel ns
        { st with thisScan := ([] : List Point) }
      cases hres : pointLoop cfg find repl rayFuel ns { st with thisScan := [] } with
      | capped st' =>
        rw [hres] at h1
        exact h1
      | cont st' x1 y1 =>
        rw [hres] at h1
        rw [ih _ st']
        exact h1

/-- No `fillPoints` call changes the board's row count or any row length. -/
theorem fillPoints_shape (cfg : Config) (points : List Point) (find repl : Cell)
    (data : List Point) (fuel : Nat) (b : Board) :
    shape (fillPoints cfg points find repl data fuel b).board = shape b := by
  unfold fillPoints
  by_cases hfr : find = repl
  · rw [if_pos hfr]
  · rw [if_neg hfr]
    exact fillLoop_shape cfg find repl fuel fuel points ⟨b, data, [], []⟩

theorem avoidFold_shape (cfg : Config) (fuel : Nat) :
    ∀ (pts : List Point) (bb : Board),
      shape (pts.foldl (fun bb p =>
        let bb1 := (fillPoints cfg [p] cfg.avoid cfg.unvisited [] fuel bb).board
        (fillPoints cfg [p] cfg.unvisited cfg.visited [] fuel bb1).board) bb) =
      shape bb := by
  intro pts
  induction pts with
  | nil => intro bb; rfl
  | cons p pts ih =>
    intro bb
    simp only [List.foldl_cons]
    rw [ih]
    rw [fillPoints_shape, fillPoints_shape]

/-- `initOutside` preserves the board's dimensions as well. -/
theorem initOutside_shape (cfg : Config) (fuel : Nat) (b : Board) :
    shape (initOutside cfg fuel b) = shape b := by
  unfold initOutside
  rw [avoidFold_shape]
  split
  · exact fillPoints_shape cfg [(0,0)] cfg.unvisited cfg.visited [] fuel b
  · rfl

/-! ## Claim C10 — shape of `transform`'s output -/

/-- C10 counterexample: `transform` terminates its output with a final
end-of-line, so `parseTemplate`'s split produces one extra *empty* row.
For the template `"a"` the transformed string splits into lines of lengths
`[3, 3, 3, 0]`, and the board built from it carries the empty trailing row:
it is not rectangular, and not every line has length `max + 2*pad = 3`. -/
theorem C10_counterexample :
    (splitEol (transformL defaultCfg "a".data)).map List.length = [3, 3, 3, 0] ∧
    shape (parseBoard defaultCfg "a".data) = [3, 3, 3, 0] ∧
    maxLineLen (splitEol "a".data) + 2 * defaultCfg.pad = 3 ∧
    ¬ (∀ r ∈ parseBoard defaultCfg "a".data,
        r.length = maxLineLen (splitEol "a".data) + 2 * defaultCfg.pad) := by
  decide

/-- C10 (amended): without microspace and for carriage-return-free input,
the transformed template consists of uniformly padded *terminated* lines —
splitting it yields exactly the `padRows` (each of length
`max-line-length + 2*pad`; each input line right-stripped and re-padded by
`padLine`) followed by one empty line from the trailing end-of-line; the
board is rectangular except for that one trailing empty row. -/
theorem padRows_row_length (cfg : Config) (t : List Char) :
    ∀ l ∈ padRows cfg t, l.length = maxLineLen (splitEol t) + 2 * cfg.pad := by
  intro l hl
  unfold padRows at hl
  rcases List.mem_append.mp hl with h | h
  · rcases List.mem_append.mp h with h | h
    · rw [List.eq_of_mem_replicate h, List.length_replicate]
    · obtain ⟨l0, hl0, rfl⟩ := List.mem_map.mp h
      exact padLine_length cfg _ l0 (mem_maxLineLen _ l0 hl0)
  · rw [List.eq_of_mem_replicate h, List.length_replicate]

theorem padRows_length (cfg : Config) (t : List Char) :
    (padRows cfg t).length = (splitEol t).length + 2 * cfg.pad := by
  unfold padRows
  simp only [List.length_append, List.length_replicate, List.length_map]
  omega

theorem splitEol_transformL (cfg : Config) (t : List Char)
    (hms : cfg.use_microspace = false) :
    splitEol (transformL cfg t) = padRows cfg t ++ [[]] := by
  rw [transformL_eq cfg t hms]
  exact splitEol_flatten (padRows cfg t) (padRows_no_newline cfg t)

theorem parseBoard_shape (cfg : Config) (t : List Char)
    (hms : cfg.use_microspace = false) (hr : '\r' ∉ t) :
    shape (parseBoard cfg t) =
      List.replicate ((splitEol t).length + 2 * cfg.pad)
        (maxLineLen (splitEol t) + 2 * cfg.pad) ++ [0] := by
  rw [parseBoard_eq cfg t hms hr]
  unfold shape
  rw [List.map_append]
  have h1 : (padRows cfg t).map (fun r => (cellsOfLine r).length) =
      List.replicate ((splitEol t).length + 2 * cfg.pad)
        (maxLineLen (splitEol t) + 2 * cfg.pad) := by
    rw [List.eq_replicate_iff]
    constructor
    · rw [List.length_map]
      exact padRows_length cfg t
    · intro n hn
      obtain ⟨r, hr2, rfl⟩ := List.mem_map.mp hn
      rw [show (cellsOfLine r).length = r.length by simp [cellsOfLine]]
      exact padRows_row_length cfg t r hr2
  rw [List.map_map] at *
  rw [show ((padRows cfg t).map (List.length ∘ cellsOfLine)) =
    (padRows cfg t).map (fun r => (cellsOfLine r).length) from rfl, h1]
  rfl

theorem padRows_getD_mid (cfg : Config) (t : List Char) (i : Nat)
    (hi : i < (splitEol t).length) :
    (padRows cfg t).getD (cfg.pad + i) [] =
      padLine cfg (maxLineLen (splitEol t)) ((splitEol t).getD i []) := by
  unfold padRows
  rw [getD_append_lt _ _ _ (by
    simp only [List.length_append, List.length_replicate, List.length_map]
    omega) []]
  rw [getD_append_ge _ _ _ (by rw [List.length_replicate]; omega) []]
  rw [List.length_replicate, Nat.add_sub_cancel_left]
  exact getD_map_lt _ _ _ hi [] []

theorem C10_transform_pads (cfg : Config) (t : List Char)
    (hms : cfg.use_microspace = false) (hr : '\r' ∉ t) :
    splitEol (transformL cfg t) = padRows cfg t ++ [[]] ∧
    (∀ l ∈ padRows cfg t, l.length = maxLineLen (splitEol t) + 2 * cfg.pad) ∧
    shape (parseBoard cfg t) =
      List.replicate ((splitEol t).length + 2 * cfg.pad)
        (maxLineLen (splitEol t) + 2 * cfg.pad) ++ [0] ∧
    (∀ i, i < (splitEol t).length →
      (padRows cfg t).getD (cfg.pad + i) [] =
        padLine cfg (maxLineLen (splitEol t)) ((splitEol t).getD i [])) :=
  ⟨splitEol_transformL cfg t hms, padRows_row_length cfg t,
    parseBoard_shape cfg t hms hr, fun i hi => padRows_getD_mid cfg t i hi⟩

/-- C10 witness: the amended theorem at the concrete one-character
template. -/
theorem C10_transform_pads_witness :
    splitEol (transformL defaultCfg "a".data) = padRows defaultCfg "a".data ++ [[]] ∧
    shape (parseBoard defaultCfg "a".data) =
      List.replicate ((splitEol "a".data).length + 2 * defaultCfg.pad)
        (maxLineLen (splitEol "a".data) + 2 * defaultCfg.pad) ++ [0] :=
  ⟨(C10_transform_pads defaultCfg "a".data (by decide) (by decide)).1,
   (C10_transform_pads defaultCfg "a".data (by decide) (by decide)).2.2.1⟩

/-! ## Claim C9 — microspace round-trip of `"_"` -/

/-- The canonical configuration with microspace parsing on (`-s`). -/
def microCfg : Config := { defaultCfg with use_microspace := true }

/-- C9 counterexample: the claim says parsing `"_"` with microspace on and
rendering raw reproduces the literal mask `["   ", " _ ", "___"]`.  The
mask of `'_'` in `microspace_char_map` actually has a *blank* middle row
(the comment in the map reads "exception: bottom center is id"), and the
raw render also carries the `transform` padding frame, so neither the
macro block nor the whole render matches the claimed mask. -/
theorem C9_counterexample :
    getBlockAt (parseBoard microCfg "_".data) 1 1 3 3 = ["   ", "   ", "___"] ∧
    ¬ getBlockAt (parseBoard microCfg "_".data) 1 1 3 3 = ["   ", " _ ", "___"] ∧
    ¬ toStringRaw (parseBoard microCfg "_".data) = ("   \n _ \n___\n").data := by
  decide

/-- C9 (amended): parsing `"_"` alone with microspace enabled and without
carving, the raw render is the padded expansion whose macro block at the
pad offset `(1,1)` is exactly the `microspace_char_map` mask of `'_'`,
`["   ", "   ", "___"]` — reproduced before any carving mutation. -/
theorem C9_micro_raw_roundtrip :
    toStringRaw (parseBoard microCfg "_".data) =
      ("     \n     \n     \n ___ \n     \n     \n\n").data ∧
    getBlockAt (parseBoard microCfg "_".data) 1 1 3 3 = getMacroCharMap "_" := by
  decide

/-! ## The carving walk's look-ahead scan (`walk`, source lines 789-886)

One direction probe of `walk`: the `while not finished` loop stepping
`(x2,y2)` by the delta, classifying the look-ahead character, and — only
when the final character is the unvisited character — knocking down the
scanned walls (a `fill` per wall point with the wall's current character)
and claiming the room (`fill` unvisited→visited).  The recursive descent
into the newly claimed points and the shuffle of their order are beyond
this per-direction model; the claims settled here only concern the scan
itself and the guard in front of the mutations.  `shuffle` in `getDeltas`
is modelled by quantifying over the shuffled list, and the scan loop gets
fuel (`none` = fuel ran out; Python always terminates because the scan
leaves the board). -/

inductive StopReason where
  | outOfBounds
  | corner
  | secondWall
  | thickWall
  | pastWall
deriving DecidableEq

structure ScanSt where
  x2 : Int
  y2 : Int
  foundwall : Bool
  wall : Cell
  wallsize : Nat
  scanC : Cell
  path : List Point
  walls : List Point
deriving DecidableEq

/-- Loop-entry state of one direction probe (`x2 = x; y2 = y; ...`). -/
def walkScanInit (x y : Int) : ScanSt :=
  ⟨x, y, false, "", 0, "", [], []⟩

/-- The `while not finished` look-ahead loop of `walk`. -/
def walkScan (cfg : Config) (b : Board) :
    Nat → ScanSt → Int → Int → Option (ScanSt × StopReason)
  | 0, _, _, _ => none
  | fuel+1, st, dx, dy =>
    let x2 := st.x2 + dx
    let y2 := st.y2 + dy
    let scanC := getCell b x2 y2
    let path' := st.path ++ [(x2, y2)]
    if scanC = "" then some ({ st with x2 := x2, y2 := y2, scanC := scanC, path := path' }, .outOfBounds)
    else if scanC ∈ cfg.corners then
      some ({ st with x2 := x2, y2 := y2, scanC := scanC, path := path' }, .corner)
    else if scanC ∈ cfg.walls then
      let st' : ScanSt :=
        { x2 := x2
          y2 := y2
          foundwall := true
          wall := scanC
          wallsize := st.wallsize + 1
          scanC := scanC
          path := path'
          walls := st.walls ++ [(x2, y2)] }
      if st.foundwall ∧ st.wall ≠ scanC then some (st', .secondWall)
      else if ((st.wallsize + 1 : Nat) : Int) > cfg.thickness then some (st', .thickWall)
      else walkScan cfg b fuel st' dx dy
    else if st.foundwall then
      some ({ st with x2 := x2, y2 := y2, scanC := scanC, path := path' }, .pastWall)
    else walkScan cfg b fuel { st with x2 := x2, y2 := y2, scanC := scanC, path := path' } dx dy

/-- `self.bias[delta] += 1` / `= 1` on the insertion-ordered dict. -/
def bumpBias (bias : List (Point × Nat)) (d : Point) : List (Point × Nat) :=
  match bias with
  | [] => [(d, 1)]
  | (k, v) :: rest => if k = d then (k, v + 1) :: rest else (k, v) :: bumpBias rest d

/-- One direction of the body of `walk` (lines 805-886, without the
recursive descent): scan, and if the scan landed on the unvisited
character, record the bias, knock down every scanned wall point and claim
the room; otherwise do nothing. -/
def walkDirOnce (cfg : Config) (fuel : Nat) (b : Board) (bias : List (Point × Nat))
    (x y : Int) (d : Point) : Board × List (Point × Nat) × List Point :=
  match walkScan cfg b fuel (walkScanInit x y) d.1 d.2 with
  | none => (b, bias, [])
  | some (st, _) =>
    if st.scanC = cfg.unvisited then
      let bias' := bumpBias bias d
      let b1 := st.walls.foldl (fun bb p =>
        (fillPoints cfg [p] (getCell bb p.1 p.2) cfg.unvisited [] fuel bb).board) b
      let out := fillPoints cfg [(st.x2, st.y2)] cfg.unvisited cfg.visited [] fuel b1
      (out.board, bias', out.data)
    else (b, bias, [])

theorem walkScan_reason (cfg : Config) (b : Board) :
    ∀ (fuel : Nat) (st0 : ScanSt) (dx dy : Int) (st : ScanSt) (r : StopReason),
      walkScan cfg b fuel st0 dx dy = some (st, r) →
      (r = .outOfBounds → st.scanC = "") ∧
      (r = .corner → st.scanC ∈ cfg.corners) ∧
      (r = .secondWall → st.scanC ∈ cfg.walls) ∧
      (r = .thickWall → st.scanC ∈ cfg.walls ∧ (st.wallsize : Int) > cfg.thickness) ∧
      (r = .pastWall → st.foundwall = true ∧ st.scanC ∉ cfg.walls ∧
        st.scanC ∉ cfg.corners ∧ st.scanC ≠ "") := by
  intro fuel
  induction fuel with
  | zero =>
    intro st0 dx dy st r h
    exact absurd h (by simp [walkScan])
  | succ fuel ih =>
    intro st0 dx dy st r h
    simp only [walkScan] at h
    by_cases h1 : getCell b (st0.x2 + dx) (st0.y2 + dy) = ""
    · rw [if_pos h1] at h
      obtain ⟨hst, hr⟩ := Prod.mk.injEq .. ▸ Option.some.injEq .. ▸ h
      subst hst
      subst hr
      refine ⟨fun _ => h1, ?_, ?_, ?_, ?_⟩ <;> intro hh <;> cases hh
    · rw [if_neg h1] at h
      by_cases h2 : getCell b (st0.x2 + dx) (st0.y2 + dy) ∈ cfg.corners
      · rw [if_pos h2] at h
        obtain ⟨hst, hr⟩ := Prod.mk.injEq .. ▸ Option.some.injEq .. ▸ h
        subst hst
        subst hr
        refine ⟨?_, fun _ => h2, ?_, ?_, ?_⟩ <;> intro hh <;> cases hh
      · rw [if_neg h2] at h
        by_cases h3 : getCell b (st0.x2 + dx) (st0.y2 + dy) ∈ cfg.walls
        · rw [if_pos h3] at h
          by_cases h4 : st0.foundwall = true ∧ st0.wall ≠ getCell b (st0.x2 + dx) (st0.y2 + dy)
          · rw [if_pos h4] at h
            obtain ⟨hst, hr⟩ := Prod.mk.injEq .. ▸ Option.some.injEq .. ▸ h
            subst hst
            subst hr
            refine ⟨?_, ?_, fun _ => h3, ?_, ?_⟩ <;> intro hh <;> cases hh
          · rw [if_neg h4] at h
            by_cases h5 : ((st0.wallsize + 1 : Nat) : Int) > cfg.thickness
            · rw [if_pos h5] at h
              obtain ⟨hst, hr⟩ := Prod.mk.injEq .. ▸ Option.some.injEq .. ▸ h
              subst hst
              subst hr
              refine ⟨?_, ?_, ?_, fun _ => ⟨h3, h5⟩, ?_⟩ <;> intro hh <;> cases hh
            · rw [if_neg h5] at h
              exact ih _ dx dy st r h
        · rw [if_neg h3] at h
          by_cases h6 : st0.foundwall = true
          · rw [if_pos h6] at h
            obtain ⟨hst, hr⟩ := Prod.mk.injEq .. ▸ Option.some.injEq .. ▸ h
            subst hst
            subst hr
            refine ⟨?_, ?_, ?_, ?_, fun _ => ⟨h6, h3, h2, h1⟩⟩ <;> intro hh <;> cases hh
          · rw [if_neg h6] at h
            exact ih _ dx dy st r h

/-! ## Claim C2 — termination causes of the look-ahead scan -/

/-- C2 counterexample: the claim lists exactly four termination causes for
the look-ahead scan (out-of-bounds sentinel, corner, thickness exceeded,
second distinct wall glyph).  But the loop also terminates when, after
being inside a wall, it reads a cell that is no wall at all (`elif
foundwall: finished = True`): scanning east from `(0,0)` over `" | `"`
passes the single `|` wall and stops on the visited marker — a fifth
termination cause, not among the four. -/
theorem C2_counterexample :
    (walkScan defaultCfg [[" ", "|", "`"]] 5 (walkScanInit 0 0) 1 0).map Prod.snd =
      some StopReason.pastWall ∧
    StopReason.pastWall ∉ [StopReason.outOfBounds, StopReason.corner,
      StopReason.thickWall, StopReason.secondWall] ∧
    walkDirOnce defaultCfg 5 [[" ", "|", "`"]] [] 0 0 (1, 0) =
      ([[" ", "|", "`"]], [], []) := by
  decide

/-- C2 (amended): whenever the look-ahead scan of `walk` terminates, the
cause is one of *five*: the empty out-of-bounds sentinel, a corner
character, scanned wall thickness above the limit, a second distinct wall
glyph, or — additionally — a non-wall, non-corner, non-empty cell reached
after having been inside a wall (the landing case).  For every cause other
than the landing case the final look-ahead character cannot be the
unvisited character (it is empty, a corner, or a wall, and the unvisited
character is none of those), so the `if scan == self.unvisited` guard
fails and the direction performs no wall removal and no room claiming. -/
theorem C2_walk_scan_termination (cfg : Config) (b : Board)
    (bias : List (Point × Nat)) (x y : Int) (d : Point) (fuel : Nat)
    (st : ScanSt) (r : StopReason)
    (hu1 : cfg.unvisited ∉ cfg.walls) (hu2 : cfg.unvisited ∉ cfg.corners)
    (hu3 : cfg.unvisited ≠ "")
    (hres : walkScan cfg b fuel (walkScanInit x y) d.1 d.2 = some (st, r)) :
    (r = .outOfBounds → st.scanC = "") ∧
    (r = .corner → st.scanC ∈ cfg.corners) ∧
    (r = .secondWall → st.scanC ∈ cfg.walls) ∧
    (r = .thickWall → st.scanC ∈ cfg.walls ∧ (st.wallsize : Int) > cfg.thickness) ∧
    (r = .pastWall → st.foundwall = true ∧ st.scanC ∉ cfg.walls ∧
      st.scanC ∉ cfg.corners ∧ st.scanC ≠ "") ∧
    (r ≠ .pastWall → st.scanC ≠ cfg.unvisited ∧
      walkDirOnce cfg fuel b bias x y d = (b, bias, [])) := by
  have h := walkScan_reason cfg b fuel (walkScanInit x y) d.1 d.2 st r hres
  obtain ⟨hoob, hcor, hsec, hthk, hpast⟩ := h
  have hne : r ≠ .pastWall → st.scanC ≠ cfg.unvisited := by
    intro hr
    cases r with
    | outOfBounds =>
      rw [hoob rfl]
      exact fun hc => hu3 hc.symm
    | corner =>
      intro hc
      exact hu2 (hc ▸ hcor rfl)
    | secondWall =>
      intro hc
      exact hu1 (hc ▸ hsec rfl)
    | thickWall =>
      intro hc
      exact hu1 (hc ▸ (hthk rfl).1)
    | pastWall => exact absurd rfl hr
  refine ⟨hoob, hcor, hsec, hthk, hpast, fun hr => ⟨hne hr, ?_⟩⟩
  simp only [walkDirOnce, hres]
  rw [if_neg (hne hr)]

/-- C2 witness: the amended theorem at a concrete corner-abort scan. -/
theorem C2_walk_scan_termination_witness :
    ((walkScanInit 0 0).x2 = 0) ∧
    walkDirOnce defaultCfg 5 [[" ", "+"]] [] 0 0 (1, 0) = ([[" ", "+"]], [], []) :=
  ⟨rfl,
    ((C2_walk_scan_termination defaultCfg [[" ", "+"]] [] 0 0 (1, 0) 5
      ⟨1, 0, false, "", 0, "+", [(1, 0)], []⟩ .corner (by decide) (by decide)
      (by decide) (by decide)).2.2.2.2.2 (by decide)).2⟩

/-! ## Claim C4 — border ring visited after `initOutside`, walk contained -/

theorem getD_mem {α : Type} (l : List α) (n : Nat) (d : α) (h : n < l.length) :
    l.getD n d ∈ l := by
  induction l generalizing n with
  | nil => simp at h
  | cons a l ih =>
    cases n with
    | zero => exact List.mem_cons_self a l
    | succ n =>
      simp only [List.length_cons, Nat.succ_lt_succ_iff] at h
      exact List.mem_cons_of_mem a (ih n h)

/-- The character of the padded board (pad 1) at any border-ring position
is a space: the top and bottom frame rows are all spaces, and every padded
content line starts and ends with a frame space. -/
theorem borderSpaceChar (t : List Char) (x y : Nat)
    (hy : y < (splitEol t).length + 2) (hx : x < maxLineLen (splitEol t) + 2)
    (hring : x = 0 ∨ y = 0 ∨ y = (splitEol t).length + 1 ∨
      x = maxLineLen (splitEol t) + 1) :
    ((padRows defaultCfg t).getD y []).getD x ' ' = ' ' := by
  have hpad : defaultCfg.pad = 1 := rfl
  have hrows : padRows defaultCfg t =
      [List.replicate (maxLineLen (splitEol t) + 2) ' '] ++
      (splitEol t).map (padLine defaultCfg (maxLineLen (splitEol t))) ++
      [List.replicate (maxLineLen (splitEol t) + 2) ' '] := by
    unfold padRows
    rw [hpad]
    norm_num
  rcases Nat.lt_or_ge y 1 with hy0 | hy1
  · have hyz : y = 0 := by omega
    subst hyz
    rw [hrows]
    rw [getD_append_lt _ _ _ (by
      simp only [List.length_append, List.length_cons, List.length_nil, List.length_map]
      omega) []]
    rw [getD_append_lt _ _ _ (by simp) []]
    simp only [List.getD_cons_zero]
    exact getD_replicate ' ' ' ' _ _ hx
  · rcases Nat.lt_or_ge y ((splitEol t).length + 1) with hyL | hyL2
    · obtain ⟨i, rfl⟩ : ∃ i, y = 1 + i := ⟨y - 1, by omega⟩
      have hi : i < (splitEol t).length := by omega
      have hrow : (padRows defaultCfg t).getD (1 + i) [] =
          padLine defaultCfg (maxLineLen (splitEol t)) ((splitEol t).getD i []) := by
        have h2 := padRows_getD_mid defaultCfg t i hi
        rwa [hpad] at h2
      rw [hrow]
      have hxcase : x = 0 ∨ x = maxLineLen (splitEol t) + 1 := by
        rcases hring with h | h | h | h
        · exact Or.inl h
        · omega
        · omega
        · exact Or.inr h
      rcases hxcase with h | h
      · subst h
        exact padLine_getD_left defaultCfg _ _ 0 (by rw [hpad]; omega)
      · subst h
        refine padLine_getD_right defaultCfg _ _ _ ?_ (by rw [hpad]; omega)
        rw [hpad]
        have hs : (pyRstrip ((splitEol t).getD i [])).length ≤ maxLineLen (splitEol t) :=
          le_trans (pyRstrip_length_le _) (mem_maxLineLen _ _ (getD_mem _ i [] hi))
        omega
    · have hyb : y = (splitEol t).length + 1 := by omega
      subst hyb
      rw [hrows]
      rw [getD_append_ge _ _ _ (by
        simp only [List.length_append, List.length_cons, List.length_nil, List.length_map]
        omega) []]
      rw [show (splitEol t).length + 1 -
          ([List.replicate (maxLineLen (splitEol t) + 2) ' '] ++
            (splitEol t).map (padLine defaultCfg (maxLineLen (splitEol t)))).length = 0 by
        simp only [List.length_append, List.length_cons, List.length_nil, List.length_map]
        omega]
      simp only [List.getD_cons_zero]
      exact getD_replicate ' ' ' ' _ _ hx

theorem padRows_getD_length (t : List Char) (y : Nat)
    (hy : y < (splitEol t).length + 2) :
    ((padRows defaultCfg t).getD y []).length = maxLineLen (splitEol t) + 2 := by
  have hmem : (padRows defaultCfg t).getD y [] ∈ padRows defaultCfg t := by
    refine getD_mem _ y [] ?_
    rw [padRows_length]
    show y < (splitEol t).length + 2 * 1
    omega
  have hpad : defaultCfg.pad = 1 := rfl
  have := padRows_row_length defaultCfg t _ hmem
  rw [this, hpad]

theorem borderSpaceCell (t : List Char) (hr : '\r' ∉ t) (x y : Nat)
    (hy : y < (splitEol t).length + 2) (hx : x < maxLineLen (splitEol t) + 2)
    (hring : x = 0 ∨ y = 0 ∨ y = (splitEol t).length + 1 ∨
      x = maxLineLen (splitEol t) + 1) :
    getCell (parseBoard defaultCfg t) (x : Int) (y : Int) = " " := by
  rw [parseBoard_eq defaultCfg t rfl hr]
  rw [getCell_padBoard (padRows defaultCfg t) (x : Int) (y : Int)
    (Int.natCast_nonneg y)
    (by simp only [Int.toNat_natCast]; rw [padRows_length]
        show y < (splitEol t).length + 2 * 1; omega)
    (Int.natCast_nonneg x)
    (by simp only [Int.toNat_natCast]; rw [padRows_getD_length t y hy]; exact hx)]
  simp only [Int.toNat_natCast]
  rw [borderSpaceChar t x y hy hx hring]

/-- The full closure package of one finished `fillPoints` call with an
empty incoming `data` list: every recorded point was a matching cell and
is now the replacement, nothing else changed, no matching cell remains
next to a recorded point, and every seed was processed. -/
theorem fillPoints_closure (cfg : Config) (points : List Point) (find repl : Cell)
    (fuel : Nat) (b : Board) (hfr : find ≠ repl) (hfe : find ≠ "")
    (hnc : find ∉ cfg.walls) (hfuel : countCells b find + 2 ≤ fuel) :
    (∀ p ∈ (fillPoints cfg points find repl [] fuel b).data,
      getCell b p.1 p.2 = find ∧
      getCell (fillPoints cfg points find repl [] fuel b).board p.1 p.2 = repl) ∧
    (∀ x y : Int, (x, y) ∉ (fillPoints cfg points find repl [] fuel b).data →
      getCell (fillPoints cfg points find repl [] fuel b).board x y = getCell b x y) ∧
    (∀ p ∈ (fillPoints cfg points find repl [] fuel b).data,
      ∀ d ∈ deltasFor cfg find,
        ((p.1 + d.1, p.2 + d.2) : Point) ∈ (fillPoints cfg points find repl [] fuel b).data ∨
        getCell (fillPoints cfg points find repl [] fuel b).board
          (p.1 + d.1) (p.2 + d.2) ≠ find) ∧
    (∀ q ∈ points, q ∈ (fillPoints cfg points find repl [] fuel b).data ∨
      getCell (fillPoints cfg points find repl [] fuel b).board q.1 q.2 ≠ find) := by
  have hray : 1 ≤ fuel := by omega
  have hg0 : GoodSt find (⟨b, [], [], []⟩ : FillSt) := fun p hp =>
    absurd hp (List.not_mem_nil p)
  have hp0 : Promises cfg find b [] points [] := fun p hp =>
    absurd hp (List.not_mem_nil p)
  have hdone := fillLoop_done cfg find repl hfr hfe hnc fuel fuel points
    ⟨b, [], [], []⟩ hg0 hfuel
  have hclosed := fillLoop_closed cfg find repl hfr hfe hnc fuel hray fuel points
    ⟨b, [], [], []⟩ hg0 hp0 hdone
  have hfacts := fillLoop_facts cfg find repl hfr hfe fuel fuel points
    ⟨b, [], [], []⟩ hg0
  obtain ⟨_, _, _, hmove, hnew⟩ := hfacts
  unfold fillPoints
  rw [if_neg hfr]
  refine ⟨?_, ?_, ?_, ?_⟩
  · intro p hp
    have := hnew p.1 p.2 hp (List.not_mem_nil p)
    exact this
  · intro x y hxy
    rcases hmove x y with h | h
    · exact absurd h.1 hxy
    · exact h
  · intro p hp d hd
    exact hclosed.1 p hp d hd
  · intro q hq
    exact hclosed.2 q hq

/-- Cells that do not hold the find character are untouched by a fill. -/
theorem fillPoints_keep (cfg : Config) (points : List Point) (find repl : Cell)
    (fuel : Nat) (b : Board) (x y : Int) (hfe : find ≠ "")
    (hne : getCell b x y ≠ find) :
    getCell (fillPoints cfg points find repl [] fuel b).board x y = getCell b x y := by
  unfold fillPoints
  by_cases hfr : find = repl
  · rw [if_pos hfr]
  · rw [if_neg hfr]
    have hg0 : GoodSt find (⟨b, [], [], []⟩ : FillSt) := fun p hp =>
      absurd hp (List.not_mem_nil p)
    have hfacts := fillLoop_facts cfg find repl hfr hfe fuel fuel points
      ⟨b, [], [], []⟩ hg0
    obtain ⟨_, _, _, hmove, hnew⟩ := hfacts
    rcases hmove x y with h | h
    · exact absurd (hnew x y h.1 h.2).1 hne
    · exact h

/-- The avoid-region pass of `initOutside` never touches a cell that holds
neither the avoid nor the unvisited character. -/
theorem avoidFold_keep (cfg : Config) (fuel : Nat)
    (ha : cfg.avoid ≠ "") (hu : cfg.unvisited ≠ "") :
    ∀ (pts : List Point) (bb : Board) (x y : Int),
      getCell bb x y ≠ cfg.avoid → getCell bb x y ≠ cfg.unvisited →
      getCell (pts.foldl (fun bb p =>
        let bb1 := (fillPoints cfg [p] cfg.avoid cfg.unvisited [] fuel bb).board
        (fillPoints cfg [p] cfg.unvisited cfg.visited [] fuel bb1).board) bb) x y =
      getCell bb x y := by
  intro pts
  induction pts with
  | nil =>
    intro bb x y _ _
    rfl
  | cons p pts ih =>
    intro bb x y h1 h2
    simp only [List.foldl_cons]
    have k1 := fillPoints_keep cfg [p] cfg.avoid cfg.unvisited fuel bb x y ha h1
    have k2 := fillPoints_keep cfg [p] cfg.unvisited cfg.visited fuel
      (fillPoints cfg [p] cfg.avoid cfg.unvisited [] fuel bb).board x y hu
      (by rw [k1]; exact h2)
    rw [ih _ x y (by rw [k2, k1]; exact h1) (by rw [k2, k1]; exact h2), k2, k1]

/-- One direction of the walk never changes the board's dimensions: its
only mutations are fills. -/
theorem walkDirOnce_shape (cfg : Config) (fuel : Nat) (b : Board)
    (bias : List (Point × Nat)) (x y : Int) (d : Point) :
    shape (walkDirOnce cfg fuel b bias x y d).1 = shape b := by
  cases hres : walkScan cfg b fuel (walkScanInit x y) d.1 d.2 with
  | none => simp only [walkDirOnce, hres]
  | some str =>
    obtain ⟨st, r⟩ := str
    simp only [walkDirOnce, hres]
    by_cases hu : st.scanC = cfg.unvisited
    · rw [if_pos hu]
      simp only
      rw [fillPoints_shape]
      have : ∀ (walls : List Point) (bb : Board),
          shape (walls.foldl (fun bb p =>
            (fillPoints cfg [p] (getCell bb p.1 p.2) cfg.unvisited [] fuel bb).board)
            bb) = shape bb := by
        intro walls
        induction walls with
        | nil => intro bb; rfl
        | cons w walls ih =>
          intro bb
          simp only [List.foldl_cons]
          rw [ih, fillPoints_shape]
      exact this st.walls b
    · rw [if_neg hu]

/-! ## Changed cells are in bounds: no fill or walk ever writes outside -/

theorem setCell_changed (b : Board) (x y x' y' : Int) (v : Cell)
    (h : getCell (setCell b x y v) x' y' ≠ getCell b x' y') :
    inBounds b x' y' := by
  by_cases heq : (x', y') = (x, y)
  · obtain ⟨h1, h2⟩ := Prod.mk.injEq .. ▸ heq
    subst h1; subst h2
    by_cases hib : inBounds b x' y'
    · exact hib
    · exact absurd (by unfold setCell; rw [if_neg hib]) h
  · exact absurd (get_setCell_ne b x y x' y' v heq) h

theorem rayScan_changed (cfg : Config) (find repl : Cell) :
    ∀ (fuel : Nat) (st : FillSt) (x2 y2 dx dy x y : Int),
      getCell (rayScan cfg find repl fuel st x2 y2 dx dy).st.board x y ≠
        getCell st.board x y →
      inBounds st.board x y := by
  intro fuel
  induction fuel with
  | zero => intro st x2 y2 dx dy x y h; exact absurd rfl h
  | succ fuel ih =>
    intro st x2 y2 dx dy x y h
    rw [rayScan] at h
    by_cases hne : getCell st.board x2 y2 ≠ find
    · rw [if_pos hne] at h
      exact absurd rfl h
    · rw [if_neg hne] at h
      have hone : ∀ (st' : FillSt), st'.board = setCell st.board x2 y2 repl →
          getCell (rayScan cfg find repl fuel st' (x2+dx) (y2+dy) dx dy).st.board x y ≠
            getCell st.board x y →
          inBounds st.board x y := by
        intro st' hb hch
        by_cases hrec :
            getCell (rayScan cfg find repl fuel st' (x2+dx) (y2+dy) dx dy).st.board x y =
              getCell st'.board x y
        · rw [hrec, hb] at hch
          exact setCell_changed st.board x2 y2 x y repl hch
        · have := ih st' (x2+dx) (y2+dy) dx dy x y hrec
          rw [hb] at this
          exact (inBounds_of_shape (shape_setCell st.board x2 y2 repl) x y).mp this
      by_cases hwb : cfg.length ≠ -1 ∧ getCell st.board x2 y2 ∈ cfg.walls
      · rw [if_pos hwb] at h
        by_cases hmem : countedWallPos cfg x2 y2 ∈ st.walls
        · rw [if_pos hmem] at h
          exact hone _ rfl h
        · rw [if_neg hmem] at h
          by_cases hcap :
              (((st.walls ++ [countedWallPos cfg x2 y2]).length : Nat) : Int) ≥ cfg.length
          · rw [if_pos hcap] at h
            exact setCell_changed st.board x2 y2 x y repl h
          · rw [if_neg hcap] at h
            exact hone _ rfl h
      · rw [if_neg hwb] at h
        exact hone _ rfl h

theorem deltaLoop_changed (cfg : Config) (find repl : Cell) (fuel : Nat) :
    ∀ (ds : List Point) (st : FillSt) (x2 y2 x y : Int),
      getCell (deltaLoop cfg find repl fuel ds st x2 y2).st.board x y ≠
        getCell st.board x y →
      inBounds st.board x y := by
  intro ds
  induction ds with
  | nil => intro st x2 y2 x y h; exact absurd rfl h
  | cons d ds ih =>
    intro st x2 y2 x y h
    rw [deltaLoop] at h
    have hsh := rayScan_shape cfg find repl fuel st x2 y2 d.1 d.2
    cases hres : rayScan cfg find repl fuel st x2 y2 d.1 d.2 with
    | capped st' =>
      rw [hres] at h hsh
      exact rayScan_changed cfg find repl fuel st x2 y2 d.1 d.2 x y (by rw [hres]; exact h)
    | cont st' x1 y1 =>
      rw [hres] at h hsh
      by_cases hrec :
          getCell (deltaLoop cfg find repl fuel ds st' x1 y1).st.board x y =
            getCell st'.board x y
      · rw [hrec] at h
        exact rayScan_changed cfg find repl fuel st x2 y2 d.1 d.2 x y
          (by rw [hres]; exact h)
      · exact (inBounds_of_shape hsh x y).mp (ih st' x1 y1 x y hrec)

theorem pointLoop_changed (cfg : Config) (find repl : Cell) (fuel : Nat) :
    ∀ (ps : List Point) (st : FillSt) (x y : Int),
      getCell (pointLoop cfg find repl fuel ps st).st.board x y ≠
        getCell st.board x y →
      inBounds st.board x y := by
  intro ps
  induction ps with
  | nil => intro st x y h; exact absurd rfl h
  | cons p ps ih =>
    intro st x y h
    obtain ⟨px, py⟩ := p
    rw [pointLoop] at h
    have hsh := deltaLoop_shape cfg find repl fuel (deltasFor cfg find) st px py
    cases hres : deltaLoop cfg find repl fuel (deltasFor cfg find) st px py with
    | capped st' =>
      rw [hres] at h hsh
      exact deltaLoop_changed cfg find repl fuel (deltasFor cfg find) st px py x y
        (by rw [hres]; exact h)
    | cont st' x1 y1 =>
      rw [hres] at h hsh
      by_cases hrec :
          getCell (pointLoop cfg find repl fuel ps st').st.board x y =
            getCell st'.board x y
      · rw [hrec] at h
        exact deltaLoop_changed cfg find repl fuel (deltasFor cfg find) st px py x y
          (by rw [hres]; exact h)
      · exact (inBounds_of_shape hsh x y).mp (ih st' x y hrec)

theorem fillLoop_changed (cfg : Config) (find repl : Cell) (rayFuel : Nat) :
    ∀ (fuel : Nat) (ns : List Point) (st : FillSt) (x y : Int),
      getCell (fillLoop cfg find repl rayFuel fuel ns st).1.board x y ≠
        getCell st.board x y →
      inBounds st.board x y := by
  intro fuel
  induction fuel with
  | zero => intro ns st x y h; exact absurd rfl h
  | succ fuel ih =>
    intro ns st x y h
    rw [fillLoop] at h
    by_cases hns : ns.isEmpty
    · rw [if_pos hns] at h
      exact absurd rfl h
    · rw [if_neg hns] at h
      have hsh := pointLoop_shape cfg find repl rayFuel ns
        { st with thisScan := ([] : List Point) }
      cases hres : pointLoop cfg find repl rayFuel ns { st with thisScan := [] } with
      | capped st' =>
        rw [hres] at h hsh
        exact pointLoop_changed cfg find repl rayFuel ns
          { st with thisScan := [] } x y (by rw [hres]; exact h)
      | cont st' x1 y1 =>
        rw [hres] at h hsh
        by_cases hrec :
            getCell (fillLoop cfg find repl rayFuel fuel
              (nextFrontier (deltasFor cfg find) st'.data st'.thisScan st'.board)
              st').1.board x y = getCell st'.board x y
        · rw [hrec] at h
          exact pointLoop_changed cfg find repl rayFuel ns
            { st with thisScan := [] } x y (by rw [hres]; exact h)
        · exact (inBounds_of_shape hsh x y).mp (ih _ st' x y hrec)

/-- Every cell a `fillPoints` call changes lies within the board's bounds:
the fill cannot write outside the board. -/
theorem fillPoints_changed (cfg : Config) (points : List Point) (find repl : Cell)
    (data : List Point) (fuel : Nat) (b : Board) (x y : Int)
    (h : getCell (fillPoints cfg points find repl data fuel b).board x y ≠
      getCell b x y) :
    inBounds b x y := by
  unfold fillPoints at h
  by_cases hfr : find = repl
  · rw [if_pos hfr] at h
    exact absurd rfl h
  · rw [if_neg hfr] at h
    exact fillLoop_changed cfg find repl fuel fuel points ⟨b, data, [], []⟩ x y h

theorem wallsFold_changed (cfg : Config) (fuel : Nat) :
    ∀ (walls : List Point) (b : Board) (x y : Int),
      getCell (walls.foldl (fun bb p =>
        (fillPoints cfg [p] (getCell bb p.1 p.2) cfg.unvisited [] fuel bb).board) b) x y ≠
        getCell b x y →
      inBounds b x y := by
  intro walls
  induction walls with
  | nil => intro b x y h; exact absurd rfl h
  | cons w walls ih =>
    intro b x y h
    simp only [List.foldl_cons] at h
    by_cases hrec :
        getCell (walls.foldl (fun bb p =>
          (fillPoints cfg [p] (getCell bb p.1 p.2) cfg.unvisited [] fuel bb).board)
          (fillPoints cfg [w] (getCell b w.1 w.2) cfg.unvisited [] fuel b).board) x y =
        getCell (fillPoints cfg [w] (getCell b w.1 w.2) cfg.unvisited [] fuel b).board x y
    · rw [hrec] at h
      exact fillPoints_changed cfg [w] (getCell b w.1 w.2) cfg.unvisited [] fuel b x y h
    · have := ih _ x y hrec
      exact (inBounds_of_shape (fillPoints_shape cfg [w] (getCell b w.1 w.2)
        cfg.unvisited [] fuel b) x y).mp this

/-- Every cell one walk direction changes lies within the board's bounds:
the walk never marks a cell outside the board. -/
theorem walkDirOnce_changed (cfg : Config) (fuel : Nat) (b : Board)
    (bias : List (Point × Nat)) (x y : Int) (d : Point) (cx cy : Int)
    (h : getCell (walkDirOnce cfg fuel b bias x y d).1 cx cy ≠ getCell b cx cy) :
    inBounds b cx cy := by
  cases hres : walkScan cfg b fuel (walkScanInit x y) d.1 d.2 with
  | none =>
    simp only [walkDirOnce, hres] at h
    exact absurd rfl h
  | some str =>
    obtain ⟨st, r⟩ := str
    simp only [walkDirOnce, hres] at h
    by_cases hu : st.scanC = cfg.unvisited
    · rw [if_pos hu] at h
      simp only at h
      set b1 := st.walls.foldl (fun bb p =>
        (fillPoints cfg [p] (getCell bb p.1 p.2) cfg.unvisited [] fuel bb).board) b with hb1
      by_cases hrec :
          getCell (fillPoints cfg [(st.x2, st.y2)] cfg.unvisited cfg.visited
            [] fuel b1).board cx cy = getCell b1 cx cy
      · rw [hrec] at h
        exact wallsFold_changed cfg fuel st.walls b cx cy h
      · have h2 := fillPoints_changed cfg [(st.x2, st.y2)] cfg.unvisited cfg.visited
          [] fuel b1 cx cy hrec
        have hsh : shape b1 = shape b := by
          rw [hb1]
          have : ∀ (walls : List Point) (bb : Board),
              shape (walls.foldl (fun bb p =>
                (fillPoints cfg [p] (getCell bb p.1 p.2) cfg.unvisited [] fuel bb).board)
                bb) = shape bb := by
            intro walls
            induction walls with
            | nil => intro bb; rfl
            | cons w walls ihw =>
              intro bb
              simp only [List.foldl_cons]
              rw [ihw, fillPoints_shape]
          exact this st.walls b
        exact (inBounds_of_shape hsh cx cy).mp h2
    · rw [if_neg hu] at h
      exact absurd rfl h

/-! ## Claim C4 — border ring visited after `initOutside`, walk containment -/

/-- C4 counterexample: end-of-line normalization happens *after* `transform`
(`parseTemplate`, source lines 182-196), so a template holding a bare
carriage return splits into more rows than `transform` padded, the padding
frame is broken, and a cell on the board's left border still holds the
template character `b` (not the visited mark) after `initOutside`. -/
theorem C4_counterexample :
    getCell (initOutside defaultCfg 20 (parseBoard defaultCfg ['a', '\r', 'b'])) 0 2
      = "b" ∧ defaultCfg.visited = "`" := by
  constructor
  · rfl
  · rfl

/-- C4 (amended: the template must contain no bare carriage return, since
eol normalization runs only after `transform`): with the canonical pad of 1
and enough fuel, after `initOutside` every cell of the outermost border
ring of the parsed board holds the visited character; and the carving walk
(`walkDirOnce`, one direction of `walk`) never changes any cell outside
the board's bounds. -/
theorem C4_border_containment (t : List Char) (fuel : Nat)
    (hr : '\r' ∉ t)
    (hfuel : countCells (parseBoard defaultCfg t) defaultCfg.unvisited + 2 ≤ fuel)
    (x y : Nat)
    (hy : y < (splitEol t).length + 2)
    (hx : x < maxLineLen (splitEol t) + 2)
    (hring : x = 0 ∨ y = 0 ∨ y = (splitEol t).length + 1 ∨
      x = maxLineLen (splitEol t) + 1) :
    getCell (initOutside defaultCfg fuel (parseBoard defaultCfg t)) (x : Int) (y : Int)
      = defaultCfg.visited ∧
    (∀ (b : Board) (bias : List (Point × Nat)) (wx wy : Int) (d : Point) (cx cy : Int),
      getCell (walkDirOnce defaultCfg fuel b bias wx wy d).1 cx cy ≠ getCell b cx cy →
      inBounds b cx cy) := by
  refine ⟨?_, fun b bias wx wy d cx cy h =>
    walkDirOnce_changed defaultCfg fuel b bias wx wy d cx cy h⟩
  set bb := parseBoard defaultCfg t with hbb
  have hspace : ∀ (a c : Nat), c < (splitEol t).length + 2 →
      a < maxLineLen (splitEol t) + 2 →
      (a = 0 ∨ c = 0 ∨ c = (splitEol t).length + 1 ∨
        a = maxLineLen (splitEol t) + 1) →
      getCell bb (a : Int) (c : Int) = defaultCfg.unvisited := by
    intro a c hc ha hrg
    exact borderSpaceCell t hr a c hc ha hrg
  obtain ⟨hdata, hkeep, hclosed, hseed⟩ :=
    fillPoints_closure defaultCfg [(0,0)] defaultCfg.unvisited defaultCfg.visited
      fuel bb (by decide) (by decide) (by decide) hfuel
  set out := fillPoints defaultCfg [(0,0)] defaultCfg.unvisited defaultCfg.visited
    [] fuel bb with hout
  have hdeltas : deltasFor defaultCfg defaultCfg.unvisited = baseDeltas := by decide
  have hmem : ∀ (a c : Nat), c < (splitEol t).length + 2 →
      a < maxLineLen (splitEol t) + 2 →
      (a = 0 ∨ c = 0 ∨ c = (splitEol t).length + 1 ∨
        a = maxLineLen (splitEol t) + 1) →
      ((a : Int), (c : Int)) ∉ out.data →
      getCell out.board (a : Int) (c : Int) = defaultCfg.unvisited := by
    intro a c hc ha hrg hnm
    rw [hkeep _ _ hnm]
    exact hspace a c hc ha hrg
  have hstep : ∀ (p : Point), p ∈ out.data → ∀ (d : Point), d ∈ baseDeltas →
      ∀ (a c : Nat), c < (splitEol t).length + 2 →
        a < maxLineLen (splitEol t) + 2 →
        (a = 0 ∨ c = 0 ∨ c = (splitEol t).length + 1 ∨
          a = maxLineLen (splitEol t) + 1) →
        (p.1 + d.1, p.2 + d.2) = (((a : Nat) : Int), ((c : Nat) : Int)) →
        (((a : Nat) : Int), ((c : Nat) : Int)) ∈ out.data := by
    intro p hp d hd a c hc ha hrg heq
    rcases hclosed p hp d (by rw [hdeltas]; exact hd) with h | h
    · rw [heq] at h
      exact h
    · have h1 : p.1 + d.1 = ((a : Nat) : Int) := congrArg Prod.fst heq
      have h2 : p.2 + d.2 = ((c : Nat) : Int) := congrArg Prod.snd heq
      rw [h1, h2] at h
      by_cases hD : (((a : Nat) : Int), ((c : Nat) : Int)) ∈ out.data
      · exact hD
      · exact absurd (hmem a c hc ha hrg hD) h
  have h00 : (((0 : Int)), ((0 : Int))) ∈ out.data := by
    rcases hseed (0, 0) (List.mem_singleton_self _) with h | h
    · exact h
    · by_cases hD : ((0 : Int), (0 : Int)) ∈ out.data
      · exact hD
      · have := hmem 0 0 (by omega) (by omega) (Or.inl rfl)
        simp only [Nat.cast_zero] at this
        exact absurd (this hD) h
  have htop : ∀ a : Nat, a < maxLineLen (splitEol t) + 2 →
      (((a : Nat) : Int), ((0 : Nat) : Int)) ∈ out.data := by
    intro a
    induction a with
    | zero =>
      intro _
      simpa using h00
    | succ a ih =>
      intro ha
      refine hstep ((a : Int), ((0 : Nat) : Int)) (ih (by omega)) (1, 0) (by decide)
        (a+1) 0 (by omega) ha (Or.inr (Or.inl rfl)) ?_
      rw [Prod.mk.injEq]
      constructor
      · omega
      · omega
  have hleft : ∀ c : Nat, c < (splitEol t).length + 2 →
      (((0 : Nat) : Int), ((c : Nat) : Int)) ∈ out.data := by
    intro c
    induction c with
    | zero =>
      intro _
      simpa using h00
    | succ c ih =>
      intro hc
      refine hstep (((0 : Nat) : Int), (c : Int)) (ih (by omega)) (0, 1) (by decide)
        0 (c+1) hc (by omega) (Or.inl rfl) ?_
      rw [Prod.mk.injEq]
      constructor
      · omega
      · omega
  have hbot : ∀ a : Nat, a < maxLineLen (splitEol t) + 2 →
      (((a : Nat) : Int), (((splitEol t).length + 1 : Nat) : Int)) ∈ out.data := by
    intro a
    induction a with
    | zero =>
      intro _
      exact hleft ((splitEol t).length + 1) (by omega)
    | succ a ih =>
      intro ha
      refine hstep ((a : Int), (((splitEol t).length + 1 : Nat) : Int))
        (ih (by omega)) (1, 0) (by decide)
        (a+1) ((splitEol t).length + 1) (by omega) ha
        (Or.inr (Or.inr (Or.inl rfl))) ?_
      rw [Prod.mk.injEq]
      constructor
      · omega
      · omega
  have hrightc : ∀ c : Nat, c < (splitEol t).length + 2 →
      (((maxLineLen (splitEol t) + 1 : Nat) : Int), ((c : Nat) : Int)) ∈ out.data := by
    intro c
    induction c with
    | zero =>
      intro _
      exact htop (maxLineLen (splitEol t) + 1) (by omega)
    | succ c ih =>
      intro hc
      refine hstep (((maxLineLen (splitEol t) + 1 : Nat) : Int), (c : Int))
        (ih (by omega)) (0, 1) (by decide)
        (maxLineLen (splitEol t) + 1) (c+1) hc (by omega)
        (Or.inr (Or.inr (Or.inr rfl))) ?_
      rw [Prod.mk.injEq]
      constructor
      · omega
      · omega
  have hxyD : (((x : Nat) : Int), ((y : Nat) : Int)) ∈ out.data := by
    rcases hring with h | h | h | h
    · subst h; exact hleft y hy
    · subst h; exact htop x hx
    · subst h; exact hbot x hx
    · subst h; exact hrightc y hy
  have hfilled : getCell out.board (x : Int) (y : Int) = defaultCfg.visited :=
    (hdata _ hxyD).2
  show getCell (initOutside defaultCfg fuel bb) (x : Int) (y : Int) = defaultCfg.visited
  unfold initOutside
  rw [if_pos (by decide : 0 < defaultCfg.pad)]
  rw [avoidFold_keep defaultCfg fuel (by decide) (by decide) _ _ (x : Int) (y : Int)
    (by rw [hfilled]; decide) (by rw [hfilled]; decide)]
  exact hfilled

theorem C4_border_containment_witness :
    '\r' ∉ "a".data ∧
    countCells (parseBoard defaultCfg "a".data) defaultCfg.unvisited + 2 ≤ 20 ∧
    getCell (initOutside defaultCfg 20 (parseBoard defaultCfg "a".data))
      ((2 : Nat) : Int) ((1 : Nat) : Int) = defaultCfg.visited :=
  ⟨by decide, by decide,
    (C4_border_containment "a".data 20 (by decide) (by decide) 2 1 (by decide)
      (by decide) (by decide)).1⟩

/-! ## 2-d pattern find/replace (`hasPatternAt`, `findPattern`, `setBlock`,
`replace`, source lines 372-484) -/

/-- `hasPatternAt(find, x, y)`: the `while True` cursor `(i,j)` sweeps the
`h × w` rectangle row-major, returning `False` at the first mismatching
cell and `True` after the last cell matched — i.e. the row-major
conjunction of `get(x+i, y+j) == find[j][i]` over the rectangle, with the
row character read through `getD` (the source indexes the row string
directly, which for the rectangular patterns the engine uses never goes
out of range; for an empty first pattern row the source raises where this
total model is vacuously true — `findPattern` filters those out before
calling). -/
def hasPatternAt (b : Board) (find : List String) (x y : Int) : Bool :=
  (List.range find.length).all (fun j =>
    (List.range (find.getD 0 "").length).all (fun i =>
      getCell b (x + (i : Int)) (y + (j : Int)) ==
        String.mk [(find.getD j "").data.getD i ' ']))

/-- `findPattern(find, x, y)`: scan row `y` from column `x`, then every
further row completely, the column range taken from row 0's length (the
source computes `w = len(self.board[0])`, which raises on an empty board;
here the empty board yields no rows to scan at all), appending the
top-left corner of every match in scan order.  The `h2 == 0` and
`w2 == 0` guards return the empty list first, exactly as in the source. -/
def findPattern (b : Board) (find : List String) (x y : Nat) : List Point :=
  if find.length = 0 then []
  else if (find.getD 0 "").length = 0 then []
  else
    (List.range' y (b.length - y)).flatMap (fun (j : Nat) =>
      let rowstart : Nat := if j ≠ y then 0 else x
      (List.range' rowstart ((b.getD 0 []).length - rowstart)).filterMap (fun (i : Nat) =>
        if hasPatternAt b find (i : Int) (j : Int) then
          some (((i : Int), (j : Int)) : Point)
        else none))

/-- `setBlock(x, y, pattern)`: write the rectangular pattern row-major
through `set`.  The source's `set` raises out of bounds; the model writes
through the total `setCell` (a no-op out of bounds) — every use in
`replace` writes over a rectangle that matched, and a matched cell is in
bounds because the out-of-bounds read `''` never equals a one-character
string. -/
def setBlock (b : Board) (x y : Int) (pattern : List String) : Board :=
  (List.range pattern.length).foldl (fun bb (j : Nat) =>
    (List.range (pattern.getD 0 "").length).foldl (fun bb (i : Nat) =>
      setCell bb (x + (i : Int)) (y + (j : Int))
        (String.mk [(pattern.getD j "").data.getD i ' '])) bb) b

/-- `replace(find, replace)`: compute every match of the *current* board
first (`findPattern` with its default start `(0,0)`), then write the
replacement block at each matched point, in match order, without
rescanning. -/
def replace (b : Board) (find repl : List String) : Board :=
  (findPattern b find 0 0).foldl (fun bb p => setBlock bb p.1 p.2 repl) b

theorem rowFold_shape (x y : Int) (g : Nat → Cell) (w : Nat) (bb : Board) :
    shape ((List.range w).foldl (fun bb (i : Nat) =>
      setCell bb (x + (i : Int)) y (g i)) bb) = shape bb := by
  induction w generalizing bb with
  | zero => rfl
  | succ w ih =>
    rw [List.range_succ, List.foldl_append, List.foldl_cons, List.foldl_nil]
    rw [shape_setCell, ih]

theorem rowFold_get_off (x y : Int) (g : Nat → Cell) (w : Nat) (bb : Board)
    (cx cy : Int) (hoff : ∀ i : Nat, i < w → (cx, cy) ≠ (x + (i : Int), y)) :
    getCell ((List.range w).foldl (fun bb (i : Nat) =>
      setCell bb (x + (i : Int)) y (g i)) bb) cx cy = getCell bb cx cy := by
  induction w generalizing bb with
  | zero => rfl
  | succ w ih =>
    rw [List.range_succ, List.foldl_append, List.foldl_cons, List.foldl_nil]
    rw [get_setCell_ne _ _ _ _ _ _ (hoff w (by omega))]
    exact ih bb (fun i hi => hoff i (by omega))

theorem rowFold_get_at (x y : Int) (g : Nat → Cell) (w : Nat) :
    ∀ (bb : Board) (i0 : Nat), i0 < w → inBounds bb (x + (i0 : Int)) y →
    getCell ((List.range w).foldl (fun bb (i : Nat) =>
      setCell bb (x + (i : Int)) y (g i)) bb) (x + (i0 : Int)) y = g i0 := by
  induction w with
  | zero => intro bb i0 h _; omega
  | succ w ih =>
    intro bb i0 hi0 hib
    rw [List.range_succ, List.foldl_append, List.foldl_cons, List.foldl_nil]
    by_cases hlast : i0 = w
    · subst hlast
      exact get_setCell_same _ _ _ _
        ((inBounds_of_shape (rowFold_shape x y g i0 bb) _ _).mpr hib)
    · rw [get_setCell_ne _ _ _ _ _ _ (by
        intro hc
        obtain ⟨h1, h2⟩ := Prod.mk.injEq .. ▸ hc
        exact hlast (by omega))]
      exact ih bb i0 (by omega) hib

theorem blockFold_shape (x y : Int) (pattern : List String) (h : Nat) :
    ∀ (bb : Board),
      shape ((List.range h).foldl (fun bb (j : Nat) =>
        (List.range (pattern.getD 0 "").length).foldl (fun bb (i : Nat) =>
          setCell bb (x + (i : Int)) (y + (j : Int))
            (String.mk [(pattern.getD j "").data.getD i ' '])) bb) bb) = shape bb := by
  induction h with
  | zero => intro bb; rfl
  | succ h ih =>
    intro bb
    rw [List.range_succ, List.foldl_append, List.foldl_cons, List.foldl_nil]
    rw [rowFold_shape, ih]

theorem setBlock_shape (b : Board) (x y : Int) (pattern : List String) :
    shape (setBlock b x y pattern) = shape b := by
  unfold setBlock
  exact blockFold_shape x y pattern pattern.length b

theorem setBlock_get_off (b : Board) (x y : Int) (pattern : List String)
    (cx cy : Int)
    (hoff : ∀ (i j : Nat), i < (pattern.getD 0 "").length → j < pattern.length →
      (cx, cy) ≠ (x + (i : Int), y + (j : Int))) :
    getCell (setBlock b x y pattern) cx cy = getCell b cx cy := by
  unfold setBlock
  have : ∀ (h : Nat), h ≤ pattern.length → ∀ (bb : Board),
      getCell ((List.range h).foldl (fun bb (j : Nat) =>
        (List.range (pattern.getD 0 "").length).foldl (fun bb (i : Nat) =>
          setCell bb (x + (i : Int)) (y + (j : Int))
            (String.mk [(pattern.getD j "").data.getD i ' '])) bb) bb) cx cy =
      getCell bb cx cy := by
    intro h hh
    induction h with
    | zero => intro bb; rfl
    | succ h ih =>
      intro bb
      rw [List.range_succ, List.foldl_append, List.foldl_cons, List.foldl_nil]
      rw [rowFold_get_off x (y + (h : Int)) _ _ _ cx cy
        (fun i hi => hoff i h hi (by omega))]
      exact ih (by omega) bb
  exact this pattern.length le_rfl b

theorem setBlock_get_at (b : Board) (x y : Int) (pattern : List String)
    (i0 j0 : Nat) (hi0 : i0 < (pattern.getD 0 "").length) (hj0 : j0 < pattern.length)
    (hib : inBounds b (x + (i0 : Int)) (y + (j0 : Int))) :
    getCell (setBlock b x y pattern) (x + (i0 : Int)) (y + (j0 : Int)) =
      String.mk [(pattern.getD j0 "").data.getD i0 ' '] := by
  unfold setBlock
  have key : ∀ (h : Nat), h ≤ pattern.length → j0 < h → ∀ (bb : Board),
      inBounds bb (x + (i0 : Int)) (y + (j0 : Int)) →
      getCell ((List.range h).foldl (fun bb (j : Nat) =>
        (List.range (pattern.getD 0 "").length).foldl (fun bb (i : Nat) =>
          setCell bb (x + (i : Int)) (y + (j : Int))
            (String.mk [(pattern.getD j "").data.getD i ' '])) bb) bb)
        (x + (i0 : Int)) (y + (j0 : Int)) =
      String.mk [(pattern.getD j0 "").data.getD i0 ' '] := by
    intro h
    induction h with
    | zero => omega
    | succ h ih =>
      intro hh hj0h bb hbb
      rw [List.range_succ, List.foldl_append, List.foldl_cons, List.foldl_nil]
      by_cases hlast : j0 = h
      · subst hlast
        refine rowFold_get_at x (y + (j0 : Int)) _ _ _ i0 hi0 ?_
        exact (inBounds_of_shape (blockFold_shape x y pattern j0 bb) _ _).mpr hbb
      · rw [rowFold_get_off x (y + (h : Int)) _ _ _ _ _ (by
          intro i hi hc
          obtain ⟨h1, h2⟩ := Prod.mk.injEq .. ▸ hc
          exact hlast (by omega))]
        exact ih (by omega) (by omega) bb hbb
  exact key pattern.length le_rfl hj0 b hib

theorem hasPatternAt_cells (b : Board) (find : List String) (x y : Int)
    (h : hasPatternAt b find x y = true) :
    ∀ (j : Nat), j < find.length → ∀ (i : Nat), i < (find.getD 0 "").length →
      getCell b (x + (i : Int)) (y + (j : Int)) =
        String.mk [(find.getD j "").data.getD i ' '] := by
  intro j hj i hi
  simp only [hasPatternAt, List.all_eq_true, List.mem_range, beq_iff_eq] at h
  exact h j hj i hi

theorem hasPatternAt_inBounds (b : Board) (find : List String) (x y : Int)
    (h : hasPatternAt b find x y = true) :
    ∀ (j : Nat), j < find.length → ∀ (i : Nat), i < (find.getD 0 "").length →
      inBounds b (x + (i : Int)) (y + (j : Int)) := by
  intro j hj i hi
  refine inBounds_of_get_ne_empty _ _ _ ?_
  rw [hasPatternAt_cells b find x y h j hj i hi]
  intro hc
  have := congrArg String.data hc
  simp at this

theorem findPattern_mem (b : Board) (find : List String) (x y : Nat) (p : Point)
    (hp : p ∈ findPattern b find x y) :
    find.length ≠ 0 ∧ (find.getD 0 "").length ≠ 0 ∧
    ∃ (i j : Nat), p = ((i : Int), (j : Int)) ∧
      hasPatternAt b find (i : Int) (j : Int) = true := by
  unfold findPattern at hp
  by_cases h1 : find.length = 0
  · rw [if_pos h1] at hp
    exact absurd hp (List.not_mem_nil p)
  · rw [if_neg h1] at hp
    by_cases h2 : (find.getD 0 "").length = 0
    · rw [if_pos h2] at hp
      exact absurd hp (List.not_mem_nil p)
    · rw [if_neg h2] at hp
      refine ⟨h1, h2, ?_⟩
      simp only [List.mem_flatMap, List.mem_filterMap] at hp
      obtain ⟨j, _, i, _, hite⟩ := hp
      by_cases hm : hasPatternAt b find (i : Int) (j : Int) = true
      · rw [if_pos hm] at hite
        exact ⟨i, j, (Option.some.inj hite).symm, hm⟩
      · rw [if_neg hm] at hite
        exact absurd hite (Option.noConfusion)

theorem rowString_data (g : Nat → Cell) :
    ∀ (l : List Char) (k : Nat) (acc : String),
      (∀ m : Nat, m < l.length → (g (k + m)).data = [l.getD m ' ']) →
      (((List.range' k l.length).map g).foldl (· ++ ·) acc).data = acc.data ++ l := by
  intro l
  induction l with
  | nil =>
    intro k acc _
    simp [List.range']
  | cons c l ih =>
    intro k acc hchars
    rw [List.length_cons, List.range'_succ, List.map_cons, List.foldl_cons]
    rw [ih (k+1) (acc ++ g k) (by
      intro m hm
      have := hchars (m+1) (by simpa using Nat.succ_lt_succ hm)
      rw [show k + (m + 1) = k + 1 + m by omega] at this
      rw [this, List.getD_cons_succ])]
    have hk := hchars 0 (by simp)
    rw [Nat.add_zero] at hk
    rw [String.data_append, hk]
    simp

theorem getBlockAt_eq_of (b : Board) (x y : Int) (w h : Nat) (pat : List String)
    (hlen : pat.length = h) (hw : ∀ r ∈ pat, r.length = w)
    (hcell : ∀ (j : Nat), j < h → ∀ (i : Nat), i < w →
      getCell b (x + (i : Int)) (y + (j : Int)) =
        String.mk [(pat.getD j "").data.getD i ' ']) :
    getBlockAt b x y w h = pat := by
  unfold getBlockAt
  refine List.ext_getElem (by rw [List.length_map, List.length_range, hlen]) ?_
  intro j hj1 hj2
  simp only [List.getElem_map, List.getElem_range]
  have hjh : j < h := by simpa using hj1
  have hrow : (pat.getD j "").length = w := hw _ (getD_mem pat j "" (by omega))
  apply String.ext
  rw [List.range_eq_range']
  have hwl : w = (pat.getD j "").data.length := by
    rw [show (pat.getD j "").data.length = (pat.getD j "").length from rfl, hrow]
  rw [hwl]
  rw [rowString_data (fun i => getCell b (x + (i : Int)) (y + (j : Int)))
    (pat.getD j "").data 0 "" (by
      intro m hm
      rw [Nat.zero_add]
      show (getCell b (x + (m : Int)) (y + (j : Int))).data =
        [(pat.getD j "").data.getD m ' ']
      rw [hcell j hjh m (by rw [hwl]; exact hm)])]
  have : pat[j] = pat.getD j "" := by
    rw [List.getD_eq_getElem?_getD, List.getElem?_eq_getElem (by omega)]
    rfl
  rw [this]
  rfl

theorem replaceFold_shape (repl : List String) :
    ∀ (L : List Point) (bb : Board),
      shape (L.foldl (fun bb q => setBlock bb q.1 q.2 repl) bb) = shape bb := by
  intro L
  induction L with
  | nil => intro bb; rfl
  | cons q L ih =>
    intro bb
    rw [List.foldl_cons, ih, setBlock_shape]

theorem replaceFold_off (repl : List String) :
    ∀ (L : List Point) (bb : Board) (cx cy : Int),
      (∀ q ∈ L, ∀ (i j : Nat), i < (repl.getD 0 "").length → j < repl.length →
        (cx, cy) ≠ (q.1 + (i : Int), q.2 + (j : Int))) →
      getCell (L.foldl (fun bb q => setBlock bb q.1 q.2 repl) bb) cx cy =
        getCell bb cx cy := by
  intro L
  induction L with
  | nil => intro bb cx cy _; rfl
  | cons q L ih =>
    intro bb cx cy hoff
    rw [List.foldl_cons]
    rw [ih _ cx cy (fun q' hq' => hoff q' (List.mem_cons_of_mem q hq'))]
    exact setBlock_get_off bb q.1 q.2 repl cx cy
      (fun i j hi hj => hoff q (List.mem_cons_self q L) i j hi hj)

/-- C3: `replace` computes the complete match list of the pre-call board
first and then writes the replacement block at every match in order
(first conjunct, the definitional shape of `replace`); consequently a
match `p` whose rectangle no *later* match overlaps ends up holding
exactly the replacement block, no matter how earlier replacements of the
same call mangled the board — its `setBlock` still happened and nothing
written afterwards touched its rectangle. -/
theorem C3_replace_match_first (b : Board) (find repl : List String) (w h : Nat)
    (hfh : find.length = h) (hfw : ∀ r ∈ find, r.length = w)
    (hrh : repl.length = h) (hrw : ∀ r ∈ repl, r.length = w)
    (L1 L2 : List Point) (p : Point)
    (hsplit : findPattern b find 0 0 = L1 ++ p :: L2)
    (hdisj : ∀ q ∈ L2, q.1 + (w : Int) ≤ p.1 ∨ p.1 + (w : Int) ≤ q.1 ∨
      q.2 + (h : Int) ≤ p.2 ∨ p.2 + (h : Int) ≤ q.2) :
    replace b find repl = (findPattern b find 0 0).foldl
      (fun bb q => setBlock bb q.1 q.2 repl) b ∧
    getBlockAt (replace b find repl) p.1 p.2 w h = repl := by
  refine ⟨rfl, ?_⟩
  have hp : p ∈ findPattern b find 0 0 := by
    rw [hsplit]
    exact List.mem_append_right _ (List.mem_cons_self _ _)
  obtain ⟨hne1, hne2, i0, j0, hpeq, hmatch⟩ := findPattern_mem b find 0 0 p hp
  have h1 : p.1 = (i0 : Int) := by rw [hpeq]
  have h2 : p.2 = (j0 : Int) := by rw [hpeq]
  have hmatch' : hasPatternAt b find p.1 p.2 = true := by
    rw [h1, h2]; exact hmatch
  have hwf : (find.getD 0 "").length = w :=
    hfw _ (getD_mem find 0 "" (by omega))
  have hh0 : 0 < h := by omega
  have hwr : (repl.getD 0 "").length = w :=
    hrw _ (getD_mem repl 0 "" (by omega))
  have hib : ∀ (i j : Nat), i < w → j < h →
      inBounds b (p.1 + (i : Int)) (p.2 + (j : Int)) := by
    intro i j hi hj
    exact hasPatternAt_inBounds b find p.1 p.2 hmatch' j (by omega) i (by omega)
  show getBlockAt ((findPattern b find 0 0).foldl
    (fun bb q => setBlock bb q.1 q.2 repl) b) p.1 p.2 w h = repl
  rw [hsplit, List.foldl_append, List.foldl_cons]
  refine getBlockAt_eq_of _ _ _ w h repl hrh hrw ?_
  intro j hj i hi
  rw [replaceFold_off repl L2 _ _ _ (by
    intro q hq i' j' hi' hj' hc
    obtain ⟨hc1, hc2⟩ := Prod.mk.injEq .. ▸ hc
    rcases hdisj q hq with hd | hd | hd | hd <;> omega)]
  exact setBlock_get_at _ p.1 p.2 repl i j (by omega) (by omega)
    ((inBounds_of_shape (replaceFold_shape repl L1 b) _ _).mpr (hib i j hi hj))

theorem C3_replace_match_first_witness :
    findPattern [["x","x","x"]] ["xx"] 0 0 = [(0, 0), (1, 0)] ∧
    getBlockAt (replace [["x","x","x"]] ["xx"] ["yy"]) 1 0 2 1 = ["yy"] :=
  ⟨by decide,
    (C3_replace_match_first [["x","x","x"]] ["xx"] ["yy"] 2 1 (by decide)
      (by decide) (by decide) (by decide) [(0, 0)] [] (1, 0) (by decide)
      (by decide)).2⟩

/-! ## Claim C6 — `setMacroChar` (source lines 309-350) -/

/-- The non-space offsets of the old shape mask, in the row-major order of
the source's write loop, as absolute board positions. -/
def maskPoints (charmap_old : List String) (x2 y2 : Int) : List Point :=
  (List.range 3).flatMap (fun (j : Nat) =>
    (List.range 3).filterMap (fun (i : Nat) =>
      if (charmap_old.getD j "").data.getD i ' ' ≠ ' ' then
        some ((x2 + (i : Int), y2 + (j : Int)) : Point)
      else none))

/-- `setMacroChar(x, y, value)`.  The opening `inBounds` check passes
`raise_exception=True`, so the out-of-bounds early `return changed` is
unreachable and an out-of-bounds call raises (`Except.error`).  The writes
of the mask-overwrite loop are direct `self.board[y4][x4] = value`
assignments (no bounds check; Python would raise on an index past the end
— the total `setCell` model drops such writes, and the behaviour theorem
tracks in-bounds writes only). -/
def setMacroChar (cfg : Config) (b : Board) (x y : Int) (value : Cell) :
    Except String (Board × List Point) :=
  if ¬ inBounds b x y then
    .error ("x,y not in bounds" ++ toString x ++ "," ++ toString y)
  else
    let c1 := getCell b x y
    if c1 = value then .ok (b, [])
    else if c1 = cfg.visited ∨ c1 = cfg.unvisited then
      .ok (setCell b x y value, [(x, y)])
    else
      let p2 := getMacroCharTopLeftPos cfg x y
      let old_id := getCell b (p2.1 + 1) (p2.2 + 1)
      if old_id = value then .ok (b, [])
      else
        let charmap_old := getMacroCharMap old_id
        if (charmap_old.getD (y - p2.2).toNat "").data.getD (x - p2.1).toNat ' '
            ≠ ' ' then
          let writes := maskPoints charmap_old p2.1 p2.2
          .ok (writes.foldl (fun bb q => setCell bb q.1 q.2 value) b, writes)
        else .ok (b, [])

theorem setFold_shape (value : Cell) :
    ∀ (L : List Point) (bb : Board),
      shape (L.foldl (fun bb q => setCell bb q.1 q.2 value) bb) = shape bb := by
  intro L
  induction L with
  | nil => intro bb; rfl
  | cons p L ih =>
    intro bb
    rw [List.foldl_cons, ih, shape_setCell]

theorem setFold_off (value : Cell) :
    ∀ (L : List Point) (bb : Board) (cx cy : Int),
      ((cx, cy) : Point) ∉ L →
      getCell (L.foldl (fun bb q => setCell bb q.1 q.2 value) bb) cx cy =
        getCell bb cx cy := by
  intro L
  induction L with
  | nil => intro bb cx cy _; rfl
  | cons p L ih =>
    intro bb cx cy hq
    rw [List.foldl_cons]
    rw [ih _ cx cy (fun hc => hq (List.mem_cons_of_mem p hc))]
    exact get_setCell_ne bb p.1 p.2 cx cy value
      (fun hc => hq (by rw [hc]; exact List.mem_cons_self p L))

theorem setFold_value (value : Cell) :
    ∀ (L : List Point) (bb : Board) (cx cy : Int),
      getCell bb cx cy = value →
      getCell (L.foldl (fun bb q => setCell bb q.1 q.2 value) bb) cx cy = value := by
  intro L
  induction L with
  | nil => intro bb cx cy h; exact h
  | cons p L ih =>
    intro bb cx cy h
    rw [List.foldl_cons]
    refine ih _ cx cy ?_
    rcases get_setCell_or bb p.1 p.2 cx cy value with h2 | h2
    · rw [h2]; exact h
    · exact h2

theorem setFold_mem (value : Cell) :
    ∀ (L : List Point) (bb : Board) (q : Point),
      q ∈ L → inBounds bb q.1 q.2 →
      getCell (L.foldl (fun bb q => setCell bb q.1 q.2 value) bb) q.1 q.2 = value := by
  intro L
  induction L with
  | nil => intro bb q h _; exact absurd h (List.not_mem_nil q)
  | cons p L ih =>
    intro bb q hq hb
    rw [List.foldl_cons]
    by_cases hql : q ∈ L
    · exact ih _ q hql ((inBounds_of_shape (shape_setCell bb p.1 p.2 value) _ _).mpr hb)
    · have hqp : q = p := by
        rcases List.mem_cons.mp hq with h | h
        · exact h
        · exact absurd h hql
      subst hqp
      exact setFold_value value L _ q.1 q.2 (get_setCell_same bb q.1 q.2 value hb)

theorem maskPoints_mem (cm : List String) (x2 y2 : Int) (q : Point) :
    q ∈ maskPoints cm x2 y2 ↔ ∃ (i j : Nat), i < 3 ∧ j < 3 ∧
      (cm.getD j "").data.getD i ' ' ≠ ' ' ∧
      q = (x2 + (i : Int), y2 + (j : Int)) := by
  unfold maskPoints
  simp only [List.mem_flatMap, List.mem_filterMap, List.mem_range]
  constructor
  · rintro ⟨j, hj, i, hi, hite⟩
    by_cases hc : (cm.getD j "").data.getD i ' ' ≠ ' '
    · rw [if_pos hc] at hite
      exact ⟨i, j, hi, hj, hc, (Option.some.inj hite).symm⟩
    · rw [if_neg hc] at hite
      exact absurd hite (Option.noConfusion)
  · rintro ⟨i, j, hi, hj, hc, hq⟩
    exact ⟨j, hj, i, hi, by rw [if_pos hc, hq]⟩

/-- A 4×4 padded board whose macro block at top-left `(1,1)` carries a
consistent `|` shape (its non-space mask cells) with the identity readable
at the centre `(2,2)`, and a stray `Y` at `(1,1)` on a *space* offset of
that mask. -/
def C6board : Board :=
  [[" ", " ", " ", " "],
   [" ", "Y", "|", " "],
   [" ", " ", "|", " "],
   [" ", " ", "|", " "]]

/-- C6 counterexample: at `(1,1)` every precondition of the claim's
mask-overwrite case holds — the cell holds `Y`, which is neither the new
value nor the visited/unvisited whitespace, and the enclosing macro cell's
identity `|` differs from the new value `X`, whose old mask has non-space
offsets — yet `setMacroChar` changes *nothing* and returns the empty list,
because the source first checks the old mask at the touched offset and
`charmap_old[0][0]` is a space. -/
theorem C6_counterexample :
    getCell C6board 1 1 = "Y" ∧ ("Y" : Cell) ≠ "X" ∧
    getCell C6board 1 1 ≠ defaultCfg.visited ∧
    getCell C6board 1 1 ≠ defaultCfg.unvisited ∧
    getMacroCharTopLeftPos defaultCfg 1 1 = (1, 1) ∧
    getCell C6board 2 2 = "|" ∧ ("|" : Cell) ≠ "X" ∧
    maskPoints (getMacroCharMap "|") 1 1 = [(2, 1), (2, 2), (2, 3)] ∧
    setMacroChar defaultCfg C6board 1 1 "X" = .ok (C6board, []) :=
  ⟨rfl, by decide, by decide, by decide, by decide, rfl, by decide, by decide, rfl⟩

/-- C6 (amended): for an in-bounds `(x,y)`, `setMacroChar(x,y,value)`
does nothing when the cell already holds the value; overwrites exactly the
one cell when it holds the visited or unvisited character; and otherwise
reads the old identity at the *centre* of the enclosing macro cell and
(i) does nothing when that identity equals the value, (ii) does nothing
when the old mask is blank at the touched offset, and (iii) only in the
remaining case overwrites every non-space offset of the old identity's
3×3 mask, returning exactly those coordinates (whether or not each cell's
value actually differed). -/
theorem C6_setMacroChar_behaviour (cfg : Config) (b : Board) (x y : Int)
    (value : Cell) (hib : inBounds b x y) :
    (getCell b x y = value → setMacroChar cfg b x y value = .ok (b, [])) ∧
    (getCell b x y ≠ value →
      (getCell b x y = cfg.visited ∨ getCell b x y = cfg.unvisited) →
      setMacroChar cfg b x y value = .ok (setCell b x y value, [(x, y)])) ∧
    (getCell b x y ≠ value →
      ¬(getCell b x y = cfg.visited ∨ getCell b x y = cfg.unvisited) →
      getCell b ((getMacroCharTopLeftPos cfg x y).1 + 1)
        ((getMacroCharTopLeftPos cfg x y).2 + 1) = value →
      setMacroChar cfg b x y value = .ok (b, [])) ∧
    (getCell b x y ≠ value →
      ¬(getCell b x y = cfg.visited ∨ getCell b x y = cfg.unvisited) →
      getCell b ((getMacroCharTopLeftPos cfg x y).1 + 1)
        ((getMacroCharTopLeftPos cfg x y).2 + 1) ≠ value →
      ¬(((getMacroCharMap (getCell b ((getMacroCharTopLeftPos cfg x y).1 + 1)
          ((getMacroCharTopLeftPos cfg x y).2 + 1))).getD
          (y - (getMacroCharTopLeftPos cfg x y).2).toNat "").data.getD
          (x - (getMacroCharTopLeftPos cfg x y).1).toNat ' ' ≠ ' ') →
      setMacroChar cfg b x y value = .ok (b, [])) ∧
    (∀ (cm : List String),
      cm = getMacroCharMap (getCell b ((getMacroCharTopLeftPos cfg x y).1 + 1)
        ((getMacroCharTopLeftPos cfg x y).2 + 1)) →
      getCell b x y ≠ value →
      ¬(getCell b x y = cfg.visited ∨ getCell b x y = cfg.unvisited) →
      getCell b ((getMacroCharTopLeftPos cfg x y).1 + 1)
        ((getMacroCharTopLeftPos cfg x y).2 + 1) ≠ value →
      (cm.getD (y - (getMacroCharTopLeftPos cfg x y).2).toNat "").data.getD
        (x - (getMacroCharTopLeftPos cfg x y).1).toNat ' ' ≠ ' ' →
      ∃ b2 : Board,
        setMacroChar cfg b x y value =
          .ok (b2, maskPoints cm (getMacroCharTopLeftPos cfg x y).1
            (getMacroCharTopLeftPos cfg x y).2) ∧
        (∀ q : Point, q ∈ maskPoints cm (getMacroCharTopLeftPos cfg x y).1
            (getMacroCharTopLeftPos cfg x y).2 ↔
          ∃ (i j : Nat), i < 3 ∧ j < 3 ∧ (cm.getD j "").data.getD i ' ' ≠ ' ' ∧
            q = ((getMacroCharTopLeftPos cfg x y).1 + (i : Int),
              (getMacroCharTopLeftPos cfg x y).2 + (j : Int))) ∧
        (∀ q ∈ maskPoints cm (getMacroCharTopLeftPos cfg x y).1
            (getMacroCharTopLeftPos cfg x y).2,
          inBounds b q.1 q.2 → getCell b2 q.1 q.2 = value) ∧
        (∀ cx cy : Int, ((cx, cy) : Point) ∉ maskPoints cm
            (getMacroCharTopLeftPos cfg x y).1 (getMacroCharTopLeftPos cfg x y).2 →
          getCell b2 cx cy = getCell b cx cy)) := by
  have hnb : ¬ ¬ inBounds b x y := fun hc => hc hib
  refine ⟨?_, ?_, ?_, ?_, ?_⟩
  · intro h1
    simp only [setMacroChar]
    rw [if_neg hnb, if_pos h1]
  · intro h1 h2
    simp only [setMacroChar]
    rw [if_neg hnb, if_neg h1, if_pos h2]
  · intro h1 h2 h3
    simp only [setMacroChar]
    rw [if_neg hnb, if_neg h1, if_neg h2, if_pos h3]
  · intro h1 h2 h3 h4
    simp only [setMacroChar]
    rw [if_neg hnb, if_neg h1, if_neg h2, if_neg h3, if_neg h4]
  · intro cm hcm h1 h2 h3 h4
    refine ⟨(maskPoints cm (getMacroCharTopLeftPos cfg x y).1
        (getMacroCharTopLeftPos cfg x y).2).foldl
        (fun bb q => setCell bb q.1 q.2 value) b, ?_, ?_, ?_, ?_⟩
    · simp only [setMacroChar]
      rw [if_neg hnb, if_neg h1, if_neg h2, if_neg h3,
        if_pos (show _ ≠ ' ' by rw [hcm] at h4; exact h4)]
      rw [hcm]
    · intro q
      exact maskPoints_mem cm _ _ q
    · intro q hq hqb
      exact setFold_mem value _ b q hq hqb
    · intro cx cy hc
      exact setFold_off value _ b cx cy hc

theorem C6_setMacroChar_behaviour_witness :
    inBounds C6board 1 2 ∧ getCell C6board 1 2 ≠ "X" ∧
    getCell C6board 1 2 = defaultCfg.unvisited ∧
    setMacroChar defaultCfg C6board 1 2 "X" =
      .ok (setCell C6board 1 2 "X", [(1, 2)]) :=
  ⟨by decide, by decide, by decide,
    (C6_setMacroChar_behaviour defaultCfg C6board 1 2 "X" (by decide)).2.1
      (by decide) (Or.inr (by decide))⟩
